import Mathlib

/-! # File state and acknowledgment tracking

A shallow embedding of `filebeat/input/file/state.go` (the `State` record, `NewState`,
`AddADMeta`, `IsEqual`) and of the ACK tracker / ACK handler exercised by
`x-pack/filebeat/input/awss3/acker_test.go`.

Conventions of the embedding:

* a Go `map[string]string` is `Option (List (String × String))`: `none` is the nil map and
  `some l` an allocated map holding the entries `l` (looked up by first match, written by
  replace-or-append, so distinct keys stay distinct);
* `int64` / `time.Duration` fields are `Int` (no arithmetic is performed on them here);
* `time.Time` is an `Int` instant, and the clock reading `time.Now()` is an argument;
* `os.FileInfo` and `file.StateOS` are declared outside this file and are type parameters;
  `file.GetOSState` and the `StateIdentifier` strategy are function arguments.
-/

namespace file

/-! ## Go maps -/

/-- Entries of an allocated `map[string]string`. -/
abbrev Entries := List (String × String)

/-- A Go `map[string]string` value: `none` is the nil map. -/
abbrev GoMap := Option Entries

namespace Entries

/-- Comma-ok lookup `v, ok := m[k]` in an allocated map. -/
def lookup : Entries → String → Option String
  | [], _ => none
  | (k', v) :: rest, k => if k' = k then some v else lookup rest k

/-- Assignment `m[k] = v` in an allocated map: replaces the entry of `k`, or adds one. -/
def assign : Entries → String → String → Entries
  | [], k, v => [(k, v)]
  | (k', v') :: rest, k, v => if k' = k then (k, v) :: rest else (k', v') :: assign rest k v

end Entries

namespace GoMap

/-- Comma-ok lookup `v, ok := m[k]`; reading a nil map finds nothing. -/
def lookup (m : GoMap) (k : String) : Option String :=
  match m with
  | none => none
  | some l => Entries.lookup l k

/-- Builtin `len(m)`; the nil map has length 0. -/
def len (m : GoMap) : Nat :=
  match m with
  | none => 0
  | some l => l.length

/-- Entries visited by `for k, v := range m`; the nil map yields none. -/
def range (m : GoMap) : Entries :=
  match m with
  | none => []
  | some l => l

/-- Key `k` is present in `m`. -/
def Has (m : GoMap) (k : String) : Prop := (lookup m k).isSome = true

instance (m : GoMap) (k : String) : Decidable (Has m k) := by
  unfold Has; infer_instance

end GoMap

/-! ## The `State` record -/

/-- State is used to communicate the reading state of a file. -/
structure State (FileInfo StateOS : Type) where
  Id : String
  PrevId : String
  Finished : Bool
  Fileinfo : FileInfo
  Source : String
  Offset : Int
  Timestamp : Int
  TTL : Int
  Type_ : String
  Meta : GoMap
  FileStateOS : StateOS
  IdentifierName : String
  ADMeta : GoMap
  deriving DecidableEq

variable {FileInfo StateOS : Type}

/-- The struct literal built by `NewState` before the identifier is consulted: the fields
not listed in the literal (`Id`, `PrevId`, `Offset`, `IdentifierName`) hold zero values. -/
def NewState.candidate (getOSState : FileInfo → StateOS) (now : Int) (fileInfo : FileInfo)
    (path t : String) (meta : GoMap) : State FileInfo StateOS :=
  let meta := if GoMap.len meta = 0 then none else meta
  { Id := ""
    PrevId := ""
    Finished := false
    Fileinfo := fileInfo
    Source := path
    Offset := 0
    Timestamp := now
    TTL := -1
    Type_ := t
    Meta := meta
    FileStateOS := getOSState fileInfo
    IdentifierName := ""
    ADMeta := none }

/-- NewState creates a new file state. `identifier` is `identifier.GenerateID`. -/
def NewState (getOSState : FileInfo → StateOS) (now : Int) (fileInfo : FileInfo)
    (path t : String) (meta : GoMap)
    (identifier : State FileInfo StateOS → String × String) : State FileInfo StateOS :=
  let s := NewState.candidate getOSState now fileInfo path t meta
  let r := identifier s
  { s with Id := r.1, IdentifierName := r.2 }

/-- One iteration of the loop of `AddADMeta` for the visited entry `(k, v)`. -/
def AddADMeta.step (s : State FileInfo StateOS) (kv : String × String) :
    State FileInfo StateOS :=
  match GoMap.lookup s.ADMeta kv.1 with
  | some _ => s
  | none =>
    let m : Entries :=
      match s.ADMeta with
      | none => []
      | some l => l
    { s with ADMeta := some (Entries.assign m kv.1 kv.2) }

/-- Adds the metadata from the State o to State s if not present already. -/
def AddADMeta (s o : State FileInfo StateOS) : State FileInfo StateOS :=
  (GoMap.range o.ADMeta).foldl AddADMeta.step s

/-- IsEqual checks if the two states point to the same file. -/
def IsEqual (s c : State FileInfo StateOS) : Bool :=
  decide (s.Id = c.Id)

/-- The loop of `AddADMeta` run over a given enumeration of the entries of `o.ADMeta` (the
order in which `range` visits a map is not specified). -/
def AddADMeta.over (s : State FileInfo StateOS) (enumeration : Entries) :
    State FileInfo StateOS :=
  enumeration.foldl AddADMeta.step s

/-- The keys of the entries are pairwise distinct, as in every Go map. -/
def Entries.Distinct (l : Entries) : Prop := (l.map Prod.fst).Nodup

instance (l : Entries) : Decidable (Entries.Distinct l) := by
  unfold Entries.Distinct; infer_instance

/-- Two Go map values that a program cannot tell apart: both nil or both allocated, and
every lookup finds the same in both. -/
def GoMap.Same (m1 m2 : GoMap) : Prop :=
  (m1 = none ↔ m2 = none) ∧ ∀ k, GoMap.lookup m1 k = GoMap.lookup m2 k

/-! ## The field tags of `State` -/

/-- The fields of `State`, in the order of the declaration. -/
inductive Field where
  | Id
  | PrevId
  | Finished
  | Fileinfo
  | Source
  | Offset
  | Timestamp
  | TTL
  | Type_
  | Meta
  | FileStateOS
  | IdentifierName
  | ADMeta
  deriving DecidableEq, Repr

/-- All fields of `State`, in the order of the declaration. -/
def Field.all : List Field :=
  [Field.Id, Field.PrevId, Field.Finished, Field.Fileinfo, Field.Source, Field.Offset,
    Field.Timestamp, Field.TTL, Field.Type_, Field.Meta, Field.FileStateOS,
    Field.IdentifierName, Field.ADMeta]

/-- A tag value such as `"meta,omitempty"` read as Go serializers read it: the key (`-`
leaves the field out) and whether the option `omitempty` is given. -/
structure Tag where
  name : String
  omitempty : Bool
  deriving DecidableEq, Repr

/-- The `json:"..."` tag of each field of `State`. -/
def jsonTag : Field → Tag
  | Field.Id => ⟨"id", false⟩
  | Field.PrevId => ⟨"prev_id", false⟩
  | Field.Finished => ⟨"-", false⟩
  | Field.Fileinfo => ⟨"-", false⟩
  | Field.Source => ⟨"source", false⟩
  | Field.Offset => ⟨"offset", false⟩
  | Field.Timestamp => ⟨"timestamp", false⟩
  | Field.TTL => ⟨"ttl", false⟩
  | Field.Type_ => ⟨"type", false⟩
  | Field.Meta => ⟨"meta", false⟩
  | Field.FileStateOS => ⟨"FileStateOS", false⟩
  | Field.IdentifierName => ⟨"identifier_name", false⟩
  | Field.ADMeta => ⟨"ad_meta", false⟩

/-- The `struct:"..."` tag of each field of `State`. -/
def structTag : Field → Tag
  | Field.Id => ⟨"id", false⟩
  | Field.PrevId => ⟨"prev_id", false⟩
  | Field.Finished => ⟨"-", false⟩
  | Field.Fileinfo => ⟨"-", false⟩
  | Field.Source => ⟨"source", false⟩
  | Field.Offset => ⟨"offset", false⟩
  | Field.Timestamp => ⟨"timestamp", false⟩
  | Field.TTL => ⟨"ttl", false⟩
  | Field.Type_ => ⟨"type", false⟩
  | Field.Meta => ⟨"meta", true⟩
  | Field.FileStateOS => ⟨"FileStateOS", false⟩
  | Field.IdentifierName => ⟨"identifier_name", false⟩
  | Field.ADMeta => ⟨"ad_meta", true⟩

/-- Whether the value of a field is empty in the sense of `omitempty`: `false`, 0, the empty
string, a nil or empty map. Struct values (`Timestamp`, `FileStateOS`) are never empty;
`Fileinfo` is left out by its tags before its value is looked at. -/
def State.isEmptyValue (s : State FileInfo StateOS) : Field → Bool
  | Field.Id => decide (s.Id = "")
  | Field.PrevId => decide (s.PrevId = "")
  | Field.Finished => !s.Finished
  | Field.Fileinfo => false
  | Field.Source => decide (s.Source = "")
  | Field.Offset => decide (s.Offset = 0)
  | Field.Timestamp => false
  | Field.TTL => decide (s.TTL = 0)
  | Field.Type_ => decide (s.Type_ = "")
  | Field.Meta => decide (GoMap.len s.Meta = 0)
  | Field.FileStateOS => false
  | Field.IdentifierName => decide (s.IdentifierName = "")
  | Field.ADMeta => decide (GoMap.len s.ADMeta = 0)

/-- Whether the serialized form of `s` under the given tags has an entry for the field: not
when the key is `-`, and not when `omitempty` is given and the value is empty. -/
def emitted (tag : Field → Tag) (s : State FileInfo StateOS) (f : Field) : Bool :=
  if (tag f).name = "-" then false
  else if (tag f).omitempty && s.isEmptyValue f then false
  else true

/-- The keys of the serialized form of `s` under the given tags. -/
def serializedKeys (tag : Field → Tag) (s : State FileInfo StateOS) : List String :=
  (Field.all.filter (emitted tag s)).map (fun f => (tag f).name)

end file

namespace awss3

/-! ## ACK tracker and ACK handler

`acker.go` is not among the sources; only `acker_test.go` is. The definitions of this section
follow the specification (sections 3, 4.3 and 4.4), with the fatal-assertion policy for
contract violations. Calls take effect one at a time (the counter is atomic or guarded by a
lock), so what several flows do is a sequence of calls. -/

/-- Modelled from the spec: the cause a fired lifetime signal reports (section 4.3,
observability): fully acknowledged, or aborted from outside. -/
inductive Cause where
  | completed
  | abandoned
  deriving DecidableEq, Repr

/-- Modelled from the spec: the contract violations of section 7. -/
inductive Violation where
  | negativeCounter
  | overAcknowledged
  deriving DecidableEq, Repr

/-- Modelled from the spec: the ACK tracker of `acker.go`, a pending count with a cancellable
lifetime signal. `signal = none` is a signal not yet canceled; `added` records that `Add` was
called. -/
structure eventACKTracker where
  pendingACKs : Int
  added : Bool
  signal : Option Cause
  deriving DecidableEq, Repr

namespace eventACKTracker

/-- Modelled from the spec: whether the lifetime signal is canceled, that is whether
`ctx.Err()` is `context.Canceled`. -/
def canceled (a : eventACKTracker) : Bool := a.signal.isSome

/-- Modelled from the spec: cancellation of the lifetime signal with a cause; a signal that
already fired keeps its first cause. -/
def cancel (a : eventACKTracker) (c : Cause) : eventACKTracker :=
  match a.signal with
  | some _ => a
  | none => { a with signal := some c }

/-- Modelled from the spec: `Add(n)` increases `pendingACKs` by `n`. -/
def Add (a : eventACKTracker) (n : Nat) : eventACKTracker :=
  { a with pendingACKs := a.pendingACKs + n, added := true }

/-- Modelled from the spec: `ACK(n)` decreases `pendingACKs` by `n`; a decrement below 0 is a
fatal contract violation; a decrement that brings the count to exactly 0 cancels the
lifetime signal. -/
def ACKn (a : eventACKTracker) (n : Nat) : Except Violation eventACKTracker :=
  if a.pendingACKs < n then
    Except.error Violation.negativeCounter
  else
    let b := { a with pendingACKs := a.pendingACKs - n }
    if b.pendingACKs = 0 then Except.ok (b.cancel Cause.completed) else Except.ok b

/-- Modelled from the spec: `ACK()`, the decrement by the default amount 1. -/
def ACK (a : eventACKTracker) : Except Violation eventACKTracker := a.ACKn 1

/-- Modelled from the spec: `Wait()`. When `Add` was never called the signal fires at once;
the call returns (`some`) when the signal is canceled and otherwise blocks (`none`), no other
flow being there to acknowledge. -/
def Wait (a : eventACKTracker) : Option eventACKTracker :=
  let b := if a.added then a else a.cancel Cause.completed
  if b.canceled then some b else none

/-- `ACK()` called `n` times in a row. -/
def ACKtimes : Nat → eventACKTracker → Except Violation eventACKTracker
  | 0, a => Except.ok a
  | n + 1, a =>
    match a.ACK with
    | Except.error e => Except.error e
    | Except.ok b => ACKtimes n b

/-- A run of `Add` calls with the given amounts. -/
def Adds (a : eventACKTracker) (ns : List Nat) : eventACKTracker :=
  ns.foldl Add a

end eventACKTracker

/-- Modelled from the spec: `newEventACKTracker(ctx)`, a tracker with nothing pending whose
lifetime signal derives from the parent context (a canceled parent cancels the child). -/
def newEventACKTracker (parentCanceled : Bool) : eventACKTracker :=
  { pendingACKs := 0
    added := false
    signal := if parentCanceled then some Cause.abandoned else none }

/-- Modelled from the spec: the private reference an event carries to its tracker (the Go
pointer `*eventACKTracker`). -/
abbrev Ref := Nat

/-- Modelled from the spec: the trackers that the references point to. -/
abbrev Heap := Ref → eventACKTracker

/-- Modelled from the spec: a published event, reduced to the private reference it carries
to the tracker responsible for it. -/
structure Event where
  Private : Ref
  deriving DecidableEq, Repr

/-- Modelled from the spec: the ACK handler, the trackers of the outstanding events in
arrival order. -/
structure eventACKHandler where
  outstanding : List Ref
  deriving DecidableEq, Repr

/-- Modelled from the spec: `newEventACKHandler()`, a handler with no outstanding event. -/
def newEventACKHandler : eventACKHandler := { outstanding := [] }

/-- Modelled from the spec: one decrement call of size `n` on the tracker behind `r`. -/
def ackAt (heap : Heap) (r : Ref) (n : Nat) : Except Violation Heap :=
  match (heap r).ACKn n with
  | Except.error e => Except.error e
  | Except.ok a => Except.ok (Function.update heap r a)

/-- Modelled from the spec: the walk of `ACKEvents` over acknowledged positions, inside a run
of `len` consecutive positions of tracker `cur`: the run is extended while the next
position belongs to `cur` and is settled by one decrement call of the run length. -/
def walkRun (cur : Ref) (len : Nat) : List Ref → Heap → Except Violation Heap
  | [], heap => ackAt heap cur len
  | r :: rest, heap =>
    if r = cur then walkRun cur (len + 1) rest heap
    else
      match ackAt heap cur len with
      | Except.error e => Except.error e
      | Except.ok heap1 => walkRun r 1 rest heap1

/-- Modelled from the spec: the walk of `ACKEvents` over the acknowledged prefix. -/
def walk : List Ref → Heap → Except Violation Heap
  | [], heap => Except.ok heap
  | r :: rest, heap => walkRun r 1 rest heap

namespace eventACKHandler

/-- Modelled from the spec: `AddEvent(event, acceptedByPipeline)`. An accepted event is
recorded at the end of the outstanding sequence; an event the pipeline did not accept is
resolved at once by a decrement of its tracker. -/
def AddEvent (h : eventACKHandler) (heap : Heap) (e : Event) (acceptedByPipeline : Bool) :
    Except Violation (eventACKHandler × Heap) :=
  if acceptedByPipeline then
    Except.ok ({ outstanding := h.outstanding ++ [e.Private] }, heap)
  else
    match ackAt heap e.Private 1 with
    | Except.error err => Except.error err
    | Except.ok heap1 => Except.ok (h, heap1)

/-- Modelled from the spec: `ACKEvents(n)`. More acknowledgments than outstanding events are
reported as a contract violation; otherwise the first `n` outstanding positions are walked
and leave the sequence. -/
def ACKEvents (h : eventACKHandler) (heap : Heap) (n : Nat) :
    Except Violation (eventACKHandler × Heap) :=
  if h.outstanding.length < n then
    Except.error Violation.overAcknowledged
  else
    match walk (h.outstanding.take n) heap with
    | Except.error err => Except.error err
    | Except.ok heap1 => Except.ok ({ outstanding := h.outstanding.drop n }, heap1)

/-- Events recorded one after the other with `AddEvent(event, true)`. -/
def AddEvents : eventACKHandler → Heap → List Event → Except Violation (eventACKHandler × Heap)
  | h, heap, [] => Except.ok (h, heap)
  | h, heap, e :: es =>
    match h.AddEvent heap e true with
    | Except.error err => Except.error err
    | Except.ok (h1, heap1) => AddEvents h1 heap1 es

end eventACKHandler

/-- Modelled from the spec: a call made on a tracker, one of the operations of section
4.3: `Add(n)`, `ACK()`, `ACK(n)` or `Wait()`. -/
inductive Call where
  | add (n : Nat)
  | ack
  | ackN (n : Nat)
  | wait
  deriving DecidableEq, Repr

/-- Modelled from the spec: the effect of one call on a tracker. A `Wait()` that blocks
leaves the tracker as it is, and the calls of the other flows go on. -/
def Call.apply : Call → eventACKTracker → Except Violation eventACKTracker
  | Call.add n, a => Except.ok (a.Add n)
  | Call.ack, a => a.ACK
  | Call.ackN n, a => a.ACKn n
  | Call.wait, a =>
    match a.Wait with
    | some b => Except.ok b
    | none => Except.ok a

/-- Calls taking effect one after the other, in the order of the list, whichever flow makes
them; the sequence ends at the first fatal violation. -/
def runCalls : List Call → eventACKTracker → Except Violation eventACKTracker
  | [], a => Except.ok a
  | c :: rest, a =>
    match c.apply a with
    | Except.error e => Except.error e
    | Except.ok b => runCalls rest b

/-- Whether the call `c`, taking the tracker from `a` to `b`, is an occasion for the
signal to fire: an `ACK` that leaves `pendingACKs` at 0, or a `Wait` on a tracker on which
`Add` was never called. -/
def Call.cancels (c : Call) (a b : eventACKTracker) : Bool :=
  match c with
  | Call.add _ => false
  | Call.ack => decide (b.pendingACKs = 0)
  | Call.ackN _ => decide (b.pendingACKs = 0)
  | Call.wait => !a.added

/-- Whether, in the course of the calls, there has been an occasion for the signal to
fire. -/
def cancelDue : List Call → eventACKTracker → Bool
  | [], _ => false
  | c :: rest, a =>
    match c.apply a with
    | Except.error _ => false
    | Except.ok b => c.cancels a b || cancelDue rest b

/-- How many times, in the course of the calls, the signal has gone from not canceled to
canceled. -/
def firings : List Call → eventACKTracker → Nat
  | [], _ => 0
  | c :: rest, a =>
    match c.apply a with
    | Except.error _ => 0
    | Except.ok b => (if a.canceled = false ∧ b.canceled = true then 1 else 0) + firings rest b

/-- The calls are `n` calls `Add(1)` and `n` calls `ACK()`, in some order. -/
def Interleaving (n : Nat) (calls : List Call) : Prop :=
  calls.Perm (List.replicate n (Call.add 1) ++ List.replicate n Call.ack)

/-- Every `ACK()` of the sequence comes after an `Add(1)` of its own: no prefix holds more
`ACK()` calls than `Add(1)` calls. -/
def AddsFirst (calls : List Call) : Prop :=
  ∀ k, (calls.take k).count Call.ack ≤ (calls.take k).count (Call.add 1)

end awss3

/-! ## Properties of `State` -/

namespace file

variable {FileInfo StateOS : Type}

theorem Entries.lookup_assign (l : Entries) (k v k' : String) :
    Entries.lookup (Entries.assign l k v) k' = if k = k' then some v else Entries.lookup l k' := by
  induction l with
  | nil => simp [Entries.assign, Entries.lookup]
  | cons e rest ih =>
    obtain ⟨a, b⟩ := e
    by_cases h : a = k
    · subst h
      by_cases h2 : a = k' <;> simp [Entries.assign, Entries.lookup, h2]
    · by_cases h2 : a = k'
      · subst h2
        have h3 : ¬ k = a := fun e => h e.symm
        simp [Entries.assign, Entries.lookup, h, h3]
      · simp [Entries.assign, Entries.lookup, h, h2, ih]

theorem Entries.lookup_isSome_of_mem (l : Entries) (kv : String × String) (h : kv ∈ l) :
    (Entries.lookup l kv.1).isSome = true := by
  induction l with
  | nil => cases h
  | cons e rest ih =>
    obtain ⟨a, b⟩ := e
    by_cases h2 : a = kv.1
    · simp [Entries.lookup, h2]
    · rcases List.mem_cons.mp h with h3 | h3
      · exact absurd (by rw [h3]) h2
      · simp [Entries.lookup, h2, ih h3]

/-- The loop body leaves every field but `ADMeta` alone. -/
theorem AddADMeta.step_frame (s : State FileInfo StateOS) (kv : String × String) :
    AddADMeta.step s kv = { s with ADMeta := (AddADMeta.step s kv).ADMeta } := by
  unfold AddADMeta.step
  split <;> rfl

/-- What a lookup finds after one iteration of the loop. -/
theorem AddADMeta.lookup_step (s : State FileInfo StateOS) (kv : String × String) (k : String) :
    GoMap.lookup (AddADMeta.step s kv).ADMeta k =
      match GoMap.lookup s.ADMeta k with
      | some v => some v
      | none => if kv.1 = k then some kv.2 else none := by
  unfold AddADMeta.step
  cases hm : s.ADMeta with
  | none => simp [GoMap.lookup, Entries.assign, Entries.lookup]
  | some l =>
    simp only [GoMap.lookup]
    cases hl : Entries.lookup l kv.1 with
    | some w =>
      simp only [hm, GoMap.lookup]
      cases hk : Entries.lookup l k with
      | some u => rfl
      | none =>
        have e : ¬ kv.1 = k := fun e => by rw [e, hk] at hl; cases hl
        simp [e]
    | none =>
      simp only [GoMap.lookup, Entries.lookup_assign]
      by_cases e : kv.1 = k
      · rw [← e, hl]
      · cases hk : Entries.lookup l k <;> simp [e]

/-- What a lookup finds after the loop has visited the entries `l`. -/
theorem AddADMeta.lookup_foldl (l : Entries) (s : State FileInfo StateOS) (k : String) :
    GoMap.lookup (l.foldl AddADMeta.step s).ADMeta k =
      match GoMap.lookup s.ADMeta k with
      | some v => some v
      | none => Entries.lookup l k := by
  induction l generalizing s with
  | nil => cases h : GoMap.lookup s.ADMeta k <;> simp [Entries.lookup, h]
  | cons e rest ih =>
    obtain ⟨a, b⟩ := e
    rw [List.foldl_cons, ih, AddADMeta.lookup_step]
    cases h : GoMap.lookup s.ADMeta k with
    | some v => rfl
    | none =>
      by_cases e : a = k <;> simp [Entries.lookup, e]

/-- A pass over entries whose keys are all present changes nothing. -/
theorem AddADMeta.foldl_of_present (l : Entries) (s : State FileInfo StateOS)
    (h : ∀ kv ∈ l, (GoMap.lookup s.ADMeta kv.1).isSome = true) :
    l.foldl AddADMeta.step s = s := by
  induction l with
  | nil => rfl
  | cons e rest ih =>
    have h1 := h e (List.mem_cons_self _ _)
    have h2 : AddADMeta.step s e = s := by
      unfold AddADMeta.step
      cases hk : GoMap.lookup s.ADMeta e.1 with
      | some v => rfl
      | none => rw [hk] at h1; cases h1
    rw [List.foldl_cons, h2]
    exact ih (fun kv hkv => h kv (List.mem_cons_of_mem _ hkv))

/-- C1: `s.IsEqual(c)` is true exactly when the two `Id` fields are equal; no other field
(`Offset`, `Timestamp`, `Source`, `Meta`, `ADMeta`, ...) takes part. -/
theorem IsEqual_iff_Id (s c : State FileInfo StateOS) :
    (IsEqual s c = true ↔ s.Id = c.Id) ∧
    (∀ (offset timestamp : Int) (source : String) (m ad : GoMap),
      IsEqual s { s with Offset := offset, Timestamp := timestamp, Source := source,
                         Meta := m, ADMeta := ad } = true) ∧
    (∀ id : String, id ≠ s.Id → IsEqual s { s with Id := id } = false) := by
  refine ⟨by simp [IsEqual], fun _ _ _ _ _ => by simp [IsEqual], fun id h => ?_⟩
  simp only [IsEqual, decide_eq_false_iff_not]
  exact fun e => h e.symm

/-- C2: a key present in the receiver's `ADMeta` before `s.AddADMeta(o)` is still present
afterwards with the value it had, whatever `o.ADMeta` holds for that key. -/
theorem AddADMeta_keeps_receiver (s o : State FileInfo StateOS) (k v : String)
    (h : GoMap.lookup s.ADMeta k = some v) :
    GoMap.lookup (AddADMeta s o).ADMeta k = some v := by
  unfold AddADMeta
  rw [AddADMeta.lookup_foldl, h]

/-- C2 at a receiver holding `a ↦ 1` and a source holding `a ↦ 2`, `b ↦ 3`: the receiver
keeps `a ↦ 1`. -/
theorem AddADMeta_keeps_receiver_witness :
    GoMap.lookup (State.ADMeta (⟨"x", "", false, (), "/p", 0, 0, -1, "log", none, (), "n",
        some [("a", "1")]⟩ : State Unit Unit)) "a" = some "1" ∧
    GoMap.lookup (AddADMeta
      (⟨"x", "", false, (), "/p", 0, 0, -1, "log", none, (), "n", some [("a", "1")]⟩ :
        State Unit Unit)
      ⟨"y", "", false, (), "/q", 0, 0, -1, "log", none, (), "n",
        some [("a", "2"), ("b", "3")]⟩).ADMeta "a" = some "1" :=
  ⟨by decide, AddADMeta_keeps_receiver _ _ "a" "1" (by decide)⟩

/-- C3: after `s.AddADMeta(o)` the keys of `s.ADMeta` are those it had before together with
those of `o.ADMeta`, and a key that `s.ADMeta` did not have maps to what `o.ADMeta` gives
it: the result is the receiver-biased union. -/
theorem AddADMeta_union (s o : State FileInfo StateOS) (k : String) :
    (GoMap.Has (AddADMeta s o).ADMeta k ↔ GoMap.Has s.ADMeta k ∨ GoMap.Has o.ADMeta k) ∧
    (¬ GoMap.Has s.ADMeta k →
      GoMap.lookup (AddADMeta s o).ADMeta k = GoMap.lookup o.ADMeta k) ∧
    GoMap.lookup (AddADMeta s o).ADMeta k =
      (GoMap.lookup s.ADMeta k).orElse (fun _ => GoMap.lookup o.ADMeta k) := by
  have hr : Entries.lookup (GoMap.range o.ADMeta) k = GoMap.lookup o.ADMeta k := by
    cases o.ADMeta <;> rfl
  have key : GoMap.lookup (AddADMeta s o).ADMeta k =
      (GoMap.lookup s.ADMeta k).orElse (fun _ => GoMap.lookup o.ADMeta k) := by
    unfold AddADMeta
    rw [AddADMeta.lookup_foldl, hr]
    cases GoMap.lookup s.ADMeta k <;> rfl
  refine ⟨?_, ?_, key⟩
  · unfold GoMap.Has
    rw [key]
    cases GoMap.lookup s.ADMeta k <;> simp
  · unfold GoMap.Has
    rw [key]
    cases GoMap.lookup s.ADMeta k <;> simp

/-- C4: calling `A.AddADMeta(B)` twice leaves `A` in the same state as calling it once. -/
theorem AddADMeta_idempotent (A B : State FileInfo StateOS) :
    AddADMeta (AddADMeta A B) B = AddADMeta A B := by
  have h : ∀ kv ∈ GoMap.range B.ADMeta,
      (GoMap.lookup (AddADMeta A B).ADMeta kv.1).isSome = true := by
    intro kv hkv
    unfold AddADMeta
    rw [AddADMeta.lookup_foldl]
    cases GoMap.lookup A.ADMeta kv.1 with
    | some v => rfl
    | none => exact Entries.lookup_isSome_of_mem _ kv hkv
  exact AddADMeta.foldl_of_present (GoMap.range B.ADMeta) (AddADMeta A B) h

/-- C5: the `Meta` of `NewState(fileInfo, path, t, meta, identifier)` is nil when `meta` is
nil or empty, is `meta` itself when `meta` has an entry, and is never an allocated empty
mapping. -/
theorem NewState_Meta (getOSState : FileInfo → StateOS) (now : Int) (fileInfo : FileInfo)
    (path t : String) (meta : GoMap) (identifier : State FileInfo StateOS → String × String) :
    ((meta = none ∨ meta = some []) →
      (NewState getOSState now fileInfo path t meta identifier).Meta = none) ∧
    (∀ e l, meta = some (e :: l) →
      (NewState getOSState now fileInfo path t meta identifier).Meta = some (e :: l)) ∧
    (NewState getOSState now fileInfo path t meta identifier).Meta ≠ some [] := by
  refine ⟨?_, ?_, ?_⟩
  · rintro (h | h) <;> subst h <;> simp [NewState, NewState.candidate, GoMap.len]
  · intro e l h
    subst h
    simp [NewState, NewState.candidate, GoMap.len]
  · rcases meta with _ | _ | ⟨e, l⟩ <;> simp [NewState, NewState.candidate, GoMap.len]

/-- C6: whatever the identifier strategy returns, `NewState` yields `Finished == false`,
`TTL == -1`, `ADMeta == nil`, `Source == path`, `Type == t` and the clock reading as
`Timestamp`. -/
theorem NewState_defaults (getOSState : FileInfo → StateOS) (now : Int) (fileInfo : FileInfo)
    (path t : String) (meta : GoMap) (identifier : State FileInfo StateOS → String × String) :
    (NewState getOSState now fileInfo path t meta identifier).Finished = false ∧
    (NewState getOSState now fileInfo path t meta identifier).TTL = -1 ∧
    (NewState getOSState now fileInfo path t meta identifier).ADMeta = none ∧
    (NewState getOSState now fileInfo path t meta identifier).Source = path ∧
    (NewState getOSState now fileInfo path t meta identifier).Type_ = t ∧
    (NewState getOSState now fileInfo path t meta identifier).Timestamp = now :=
  ⟨rfl, rfl, rfl, rfl, rfl, rfl⟩

/-- C7: the `(Id, IdentifierName)` of `NewState(...)` is the pair `identifier.GenerateID`
returns for the candidate: the state with `Source`, `Type`, normalized `Meta`, `TTL == -1`,
`Timestamp`, `FileStateOS` and `Fileinfo` populated, `Id`, `IdentifierName` and `PrevId`
empty and `Offset` 0. -/
theorem NewState_Id_from_identifier (getOSState : FileInfo → StateOS) (now : Int)
    (fileInfo : FileInfo) (path t : String) (meta : GoMap)
    (identifier : State FileInfo StateOS → String × String) :
    ((NewState getOSState now fileInfo path t meta identifier).Id,
      (NewState getOSState now fileInfo path t meta identifier).IdentifierName) =
      identifier
        { Id := ""
          PrevId := ""
          Finished := false
          Fileinfo := fileInfo
          Source := path
          Offset := 0
          Timestamp := now
          TTL := -1
          Type_ := t
          Meta := (match meta with
            | some (e :: l) => some (e :: l)
            | _ => none)
          FileStateOS := getOSState fileInfo
          IdentifierName := ""
          ADMeta := none } := by
  rcases meta with _ | _ | ⟨e, l⟩ <;> rfl

/-! ### Frame, allocation and order lemmas for `AddADMeta` -/

/-- The loop rewrites `ADMeta` and nothing else. -/
theorem AddADMeta.foldl_frame_exists (l : Entries) (s : State FileInfo StateOS) :
    ∃ m, l.foldl AddADMeta.step s = { s with ADMeta := m } := by
  induction l generalizing s with
  | nil => exact ⟨s.ADMeta, rfl⟩
  | cons e rest ih =>
    obtain ⟨m, hm⟩ := ih (AddADMeta.step s e)
    refine ⟨m, ?_⟩
    rw [List.foldl_cons, hm, AddADMeta.step_frame s e]

/-- The loop leaves every field but `ADMeta` alone. -/
theorem AddADMeta.foldl_frame (l : Entries) (s : State FileInfo StateOS) :
    l.foldl AddADMeta.step s = { s with ADMeta := (l.foldl AddADMeta.step s).ADMeta } := by
  obtain ⟨m, hm⟩ := AddADMeta.foldl_frame_exists l s
  rw [hm]

/-- The `ADMeta` written by one iteration depends on the receiver's `ADMeta` only. -/
theorem AddADMeta.step_congr (s t : State FileInfo StateOS) (kv : String × String)
    (h : s.ADMeta = t.ADMeta) :
    (AddADMeta.step s kv).ADMeta = (AddADMeta.step t kv).ADMeta := by
  unfold AddADMeta.step
  rw [h]
  cases GoMap.lookup t.ADMeta kv.1 with
  | some v => exact h
  | none => simp only [h]

/-- The `ADMeta` written by the loop depends on the receiver's `ADMeta` only. -/
theorem AddADMeta.foldl_congr (l : Entries) (s t : State FileInfo StateOS)
    (h : s.ADMeta = t.ADMeta) :
    (l.foldl AddADMeta.step s).ADMeta = (l.foldl AddADMeta.step t).ADMeta := by
  induction l generalizing s t with
  | nil => exact h
  | cons e rest ih =>
    rw [List.foldl_cons, List.foldl_cons]
    exact ih _ _ (AddADMeta.step_congr s t e h)

/-- A lookup in the visited entries is a lookup in the map. -/
theorem GoMap.lookup_range (m : GoMap) (k : String) :
    Entries.lookup (GoMap.range m) k = GoMap.lookup m k := by
  cases m <;> rfl

/-- After one iteration the receiver's `ADMeta` holds an entry. -/
theorem AddADMeta.step_range_ne_nil (s : State FileInfo StateOS) (kv : String × String) :
    GoMap.range (AddADMeta.step s kv).ADMeta ≠ [] := by
  intro h
  have h1 := AddADMeta.lookup_step s kv kv.1
  rw [← GoMap.lookup_range, h] at h1
  cases hk : GoMap.lookup s.ADMeta kv.1 with
  | some v =>
    rw [hk] at h1
    simp [Entries.lookup] at h1
  | none =>
    rw [hk] at h1
    simp [Entries.lookup] at h1

/-- The loop never empties the receiver's `ADMeta`. -/
theorem AddADMeta.foldl_range_ne_nil (l : Entries) (s : State FileInfo StateOS)
    (h : GoMap.range s.ADMeta ≠ []) : GoMap.range (l.foldl AddADMeta.step s).ADMeta ≠ [] := by
  induction l generalizing s with
  | nil => exact h
  | cons e rest ih =>
    rw [List.foldl_cons]
    exact ih _ (AddADMeta.step_range_ne_nil s e)

/-- The receiver's `ADMeta` holds no entry after the loop only when it held none before and
nothing was visited. -/
theorem AddADMeta.foldl_range_eq_nil (l : Entries) (s : State FileInfo StateOS) :
    GoMap.range (l.foldl AddADMeta.step s).ADMeta = [] ↔ GoMap.range s.ADMeta = [] ∧ l = [] := by
  constructor
  · intro h
    cases l with
    | nil => exact ⟨h, rfl⟩
    | cons e rest =>
      rw [List.foldl_cons] at h
      exact absurd h (AddADMeta.foldl_range_ne_nil rest _ (AddADMeta.step_range_ne_nil s e))
  · rintro ⟨h, rfl⟩
    exact h

/-- The receiver's `ADMeta` is nil after the loop only when it was nil before and nothing was
visited. -/
theorem AddADMeta.foldl_eq_none (l : Entries) (s : State FileInfo StateOS) :
    (l.foldl AddADMeta.step s).ADMeta = none ↔ s.ADMeta = none ∧ l = [] := by
  constructor
  · intro h
    cases l with
    | nil => exact ⟨h, rfl⟩
    | cons e rest =>
      rw [List.foldl_cons] at h
      have h1 := AddADMeta.foldl_range_ne_nil rest _ (AddADMeta.step_range_ne_nil s e)
      rw [h] at h1
      exact absurd rfl h1
  · rintro ⟨h, rfl⟩
    exact h

/-- With distinct keys, a lookup finds exactly the entries of the list. -/
theorem Entries.lookup_eq_some_iff (l : Entries) (hd : Entries.Distinct l) (k v : String) :
    Entries.lookup l k = some v ↔ (k, v) ∈ l := by
  induction l with
  | nil => simp [Entries.lookup]
  | cons e rest ih =>
    obtain ⟨a, b⟩ := e
    unfold Entries.Distinct at hd ih
    rw [List.map_cons, List.nodup_cons] at hd
    by_cases h : a = k
    · subst h
      simp only [Entries.lookup, if_true, List.mem_cons, Prod.mk.injEq, true_and,
        Option.some.injEq]
      constructor
      · intro e; exact Or.inl e.symm
      · rintro (e | e)
        · exact e.symm
        · exact absurd (List.mem_map_of_mem Prod.fst e) hd.1
    · simp only [Entries.lookup, if_neg h, List.mem_cons, Prod.mk.injEq]
      rw [ih hd.2]
      constructor
      · intro e; exact Or.inr e
      · rintro (e | e)
        · exact absurd e.1.symm h
        · exact e

/-- Two enumerations of the same distinct-keyed entries give the same lookups. -/
theorem Entries.lookup_perm (l1 l2 : Entries) (hp : l1.Perm l2) (hd : Entries.Distinct l1)
    (k : String) : Entries.lookup l1 k = Entries.lookup l2 k := by
  have hd2 : Entries.Distinct l2 := by
    unfold Entries.Distinct at hd ⊢
    exact (hp.map Prod.fst).nodup_iff.mp hd
  apply Option.ext
  intro v
  simp only [Option.mem_def]
  rw [Entries.lookup_eq_some_iff l1 hd, Entries.lookup_eq_some_iff l2 hd2]
  exact hp.mem_iff

/-- Assigning a key that is not found adds its entry at the end. -/
theorem Entries.assign_of_lookup_none (l : Entries) (k v : String)
    (h : Entries.lookup l k = none) : Entries.assign l k v = l ++ [(k, v)] := by
  induction l with
  | nil => rfl
  | cons e rest ih =>
    obtain ⟨a, b⟩ := e
    by_cases hk : a = k
    · simp [Entries.lookup, hk] at h
    · simp only [Entries.lookup, if_neg hk] at h
      simp [Entries.assign, hk, ih h]

/-- A key that is not among the keys is not found. -/
theorem Entries.lookup_eq_none (l : Entries) (k : String) (h : k ∉ l.map Prod.fst) :
    Entries.lookup l k = none := by
  induction l with
  | nil => rfl
  | cons e rest ih =>
    obtain ⟨a, b⟩ := e
    rw [List.map_cons, List.mem_cons, not_or] at h
    have hk : ¬ a = k := fun e => h.1 e.symm
    simp [Entries.lookup, hk, ih h.2]

/-- Visiting entries whose keys are new and distinct appends them to an allocated map. -/
theorem AddADMeta.foldl_append (l : Entries) : ∀ (acc : Entries) (s : State FileInfo StateOS),
    s.ADMeta = some acc → Entries.Distinct (acc ++ l) →
    (l.foldl AddADMeta.step s).ADMeta = some (acc ++ l) := by
  induction l with
  | nil => intro acc s h _; simpa using h
  | cons e rest ih =>
    intro acc s h hd
    have hd1 : Entries.Distinct ((acc ++ [e]) ++ rest) := by simpa using hd
    have hne : e.1 ∉ acc.map Prod.fst := by
      unfold Entries.Distinct at hd
      rw [List.map_append, List.map_cons] at hd
      intro hm
      exact (List.nodup_append.mp hd).2.2 hm (List.mem_cons_self _ _)
    have hl : GoMap.lookup s.ADMeta e.1 = none := by
      rw [h]; exact Entries.lookup_eq_none acc e.1 hne
    have hs : (AddADMeta.step s e).ADMeta = some (acc ++ [e]) := by
      unfold AddADMeta.step
      rw [hl]
      simp only [h]
      rw [Entries.assign_of_lookup_none acc e.1 e.2 (by rw [h] at hl; exact hl)]
    rw [List.foldl_cons, ih (acc ++ [e]) _ hs hd1]
    simp

/-- C14 as stated fails: an identifier that is a function of the candidate may read the
candidate's `Timestamp`, and then two clock readings give two different `Id`s for the same
file, path, type and meta. -/
theorem NewState_Id_depends_on_clock :
    IsEqual
      (NewState (fun _ : Unit => ()) 0 () "/var/log/a" "log" none
        (fun s => (if s.Timestamp = 0 then "early" else "late", "clock")))
      (NewState (fun _ : Unit => ()) 1 () "/var/log/a" "log" none
        (fun s => (if s.Timestamp = 0 then "early" else "late", "clock"))) = false := by
  decide

/-- C14, amended: for an identifier strategy whose result does not depend on the candidate's
`Timestamp`, two calls of `NewState` with the same fileInfo, path, type and meta at any two
clock readings yield the same `Id` and `IdentifierName`, so the two states are `IsEqual`. -/
theorem NewState_identity_stable (getOSState : FileInfo → StateOS) (now1 now2 : Int)
    (fileInfo : FileInfo) (path t : String) (meta : GoMap)
    (identifier : State FileInfo StateOS → String × String)
    (h : ∀ (s : State FileInfo StateOS) (ts : Int),
      identifier { s with Timestamp := ts } = identifier s) :
    (NewState getOSState now1 fileInfo path t meta identifier).Id =
      (NewState getOSState now2 fileInfo path t meta identifier).Id ∧
    (NewState getOSState now1 fileInfo path t meta identifier).IdentifierName =
      (NewState getOSState now2 fileInfo path t meta identifier).IdentifierName ∧
    IsEqual (NewState getOSState now1 fileInfo path t meta identifier)
      (NewState getOSState now2 fileInfo path t meta identifier) = true := by
  have hc : NewState.candidate getOSState now2 fileInfo path t meta =
      { NewState.candidate getOSState now1 fileInfo path t meta with Timestamp := now2 } := rfl
  have hi : identifier (NewState.candidate getOSState now2 fileInfo path t meta) =
      identifier (NewState.candidate getOSState now1 fileInfo path t meta) := by
    rw [hc, h]
  have h1 : (NewState getOSState now1 fileInfo path t meta identifier).Id =
      (NewState getOSState now2 fileInfo path t meta identifier).Id := by
    show (identifier _).1 = (identifier _).1
    rw [hi]
  have h2 : (NewState getOSState now1 fileInfo path t meta identifier).IdentifierName =
      (NewState getOSState now2 fileInfo path t meta identifier).IdentifierName := by
    show (identifier _).2 = (identifier _).2
    rw [hi]
  exact ⟨h1, h2, by simp [IsEqual, h1]⟩

/-- C14 for the path-based identifier at the clock readings 0 and 1. -/
theorem NewState_identity_stable_witness :
    (NewState (fun _ : Unit => ()) 0 () "/var/log/a" "log" none
        (fun s => (s.Source, "path"))).Id =
      (NewState (fun _ : Unit => ()) 1 () "/var/log/a" "log" none
        (fun s => (s.Source, "path"))).Id ∧
    (NewState (fun _ : Unit => ()) 0 () "/var/log/a" "log" none
        (fun s => (s.Source, "path"))).IdentifierName =
      (NewState (fun _ : Unit => ()) 1 () "/var/log/a" "log" none
        (fun s => (s.Source, "path"))).IdentifierName ∧
    IsEqual (NewState (fun _ : Unit => ()) 0 () "/var/log/a" "log" none
        (fun s => (s.Source, "path")))
      (NewState (fun _ : Unit => ()) 1 () "/var/log/a" "log" none
        (fun s => (s.Source, "path"))) = true :=
  NewState_identity_stable (fun _ : Unit => ()) 0 1 () "/var/log/a" "log" none
    (fun s => (s.Source, "path")) (fun _ _ => rfl)

/-- C15: `s.AddADMeta(o)` changes no field of `s` other than `ADMeta`; every entry of the
resulting `ADMeta` is an entry of `s.ADMeta` or of `o.ADMeta`, and the resulting `ADMeta`
is the same whatever `s.Meta` and `o.Meta` hold; `IsEqual` against any state is
unchanged. -/
theorem AddADMeta_frame (s o c : State FileInfo StateOS) :
    AddADMeta s o = { s with ADMeta := (AddADMeta s o).ADMeta } ∧
    ((AddADMeta s o).Id = s.Id ∧ (AddADMeta s o).PrevId = s.PrevId ∧
      (AddADMeta s o).Finished = s.Finished ∧ (AddADMeta s o).Source = s.Source ∧
      (AddADMeta s o).Offset = s.Offset ∧ (AddADMeta s o).Timestamp = s.Timestamp ∧
      (AddADMeta s o).TTL = s.TTL ∧ (AddADMeta s o).Type_ = s.Type_ ∧
      (AddADMeta s o).Meta = s.Meta ∧ (AddADMeta s o).FileStateOS = s.FileStateOS ∧
      (AddADMeta s o).IdentifierName = s.IdentifierName) ∧
    (∀ k v, GoMap.lookup (AddADMeta s o).ADMeta k = some v →
      GoMap.lookup s.ADMeta k = some v ∨ GoMap.lookup o.ADMeta k = some v) ∧
    (∀ m1 m2 : GoMap,
      (AddADMeta { s with Meta := m1 } { o with Meta := m2 }).ADMeta = (AddADMeta s o).ADMeta) ∧
    IsEqual (AddADMeta s o) c = IsEqual s c ∧
    IsEqual c (AddADMeta s o) = IsEqual c s := by
  have hf : AddADMeta s o = { s with ADMeta := (AddADMeta s o).ADMeta } :=
    AddADMeta.foldl_frame (GoMap.range o.ADMeta) s
  have hid : (AddADMeta s o).Id = s.Id := by rw [hf]
  refine ⟨hf, ⟨hid, ?_, ?_, ?_, ?_, ?_, ?_, ?_, ?_, ?_, ?_⟩, ?_, ?_, ?_, ?_⟩
  · rw [hf]
  · rw [hf]
  · rw [hf]
  · rw [hf]
  · rw [hf]
  · rw [hf]
  · rw [hf]
  · rw [hf]
  · rw [hf]
  · rw [hf]
  · intro k v hk
    unfold AddADMeta at hk
    rw [AddADMeta.lookup_foldl, GoMap.lookup_range] at hk
    cases hs : GoMap.lookup s.ADMeta k with
    | some w => rw [hs] at hk; exact Or.inl hk
    | none => rw [hs] at hk; exact Or.inr hk
  · intro m1 m2
    exact AddADMeta.foldl_congr (GoMap.range o.ADMeta) { s with Meta := m1 } s rfl
  · simp [IsEqual, hid]
  · simp [IsEqual, hid]

/-- C16 as stated fails: the `json` tag of `Meta` is `"meta"`, without `omitempty`, so the
form described by the `json` tags has a `meta` entry for a state whose `Meta` is nil. -/
theorem Meta_json_not_omitted :
    (jsonTag Field.Meta).omitempty = false ∧
    emitted jsonTag (⟨"x", "", false, (), "/p", 0, 0, -1, "log", none, (), "n", none⟩ :
      State Unit Unit) Field.Meta = true ∧
    "meta" ∈ serializedKeys jsonTag (⟨"x", "", false, (), "/p", 0, 0, -1, "log", none, (),
      "n", none⟩ : State Unit Unit) := by
  decide

/-- C16, amended: for a state whose `Meta` is nil or empty, the form described by the
`struct` tags has no entry for `Meta` (that tag asks for omission when empty), and
`Finished` is excluded from the forms described by the `json` and by the `struct` tags. -/
theorem Meta_struct_omitted (s : State FileInfo StateOS) (h : GoMap.len s.Meta = 0) :
    (structTag Field.Meta).omitempty = true ∧
    emitted structTag s Field.Meta = false ∧
    "meta" ∉ serializedKeys structTag s ∧
    emitted jsonTag s Field.Finished = false ∧
    emitted structTag s Field.Finished = false ∧
    (∀ f ∈ Field.all, emitted jsonTag s f = true → f ≠ Field.Finished) ∧
    (∀ f ∈ Field.all, emitted structTag s f = true → f ≠ Field.Finished) := by
  have hm : emitted structTag s Field.Meta = false := by
    simp [emitted, structTag, State.isEmptyValue, h]
  refine ⟨rfl, hm, ?_, rfl, rfl, ?_, ?_⟩
  · unfold serializedKeys
    rw [List.mem_map]
    rintro ⟨f, hf, hn⟩
    rw [List.mem_filter] at hf
    cases f <;> first
      | (rw [hm] at hf; exact absurd hf.2 (by decide))
      | exact absurd hn (by decide)
  · intro f _ hf e
    subst e
    have h0 : emitted jsonTag s Field.Finished = false := rfl
    rw [h0] at hf
    cases hf
  · intro f _ hf e
    subst e
    have h0 : emitted structTag s Field.Finished = false := rfl
    rw [h0] at hf
    cases hf

/-- C16 on a state with a nil `Meta`. -/
theorem Meta_struct_omitted_witness :
    "meta" ∉ serializedKeys structTag (⟨"x", "", false, (), "/p", 0, 0, -1, "log", none, (),
      "n", none⟩ : State Unit Unit) :=
  (Meta_struct_omitted (⟨"x", "", false, (), "/p", 0, 0, -1, "log", none, (), "n", none⟩ :
    State Unit Unit) (by decide)).2.2.1

/-- C18: `AddADMeta` allocates the receiver's `ADMeta` on its first write only. A receiver
with a nil `ADMeta` keeps it nil when `o.ADMeta` is nil or empty, and otherwise ends with an
allocated mapping in which every lookup finds what it finds in `o.ADMeta` (the very entries
of `o.ADMeta`, keys being distinct); a receiver with an allocated `ADMeta`, even an empty
one, is never reset to nil. -/
theorem AddADMeta_lazy_allocation (s o : State FileInfo StateOS) :
    (s.ADMeta = none → GoMap.len o.ADMeta = 0 → (AddADMeta s o).ADMeta = none) ∧
    (s.ADMeta = none → GoMap.len o.ADMeta ≠ 0 →
      (AddADMeta s o).ADMeta ≠ none ∧
      (∀ k, GoMap.lookup (AddADMeta s o).ADMeta k = GoMap.lookup o.ADMeta k) ∧
      (Entries.Distinct (GoMap.range o.ADMeta) → (AddADMeta s o).ADMeta = o.ADMeta)) ∧
    (s.ADMeta ≠ none → (AddADMeta s o).ADMeta ≠ none) := by
  have hlen : GoMap.len o.ADMeta = 0 ↔ GoMap.range o.ADMeta = [] := by
    cases o.ADMeta with
    | none => simp [GoMap.len, GoMap.range]
    | some l => simp [GoMap.len, GoMap.range]
  refine ⟨?_, ?_, ?_⟩
  · intro hs ho
    exact (AddADMeta.foldl_eq_none _ s).mpr ⟨hs, hlen.mp ho⟩
  · intro hs ho
    have hne : GoMap.range o.ADMeta ≠ [] := fun e => ho (hlen.mpr e)
    refine ⟨?_, ?_, ?_⟩
    · intro e
      exact hne ((AddADMeta.foldl_eq_none _ s).mp e).2
    · intro k
      unfold AddADMeta
      rw [AddADMeta.lookup_foldl, hs, GoMap.lookup_range]
      rfl
    · intro hd
      cases ho2 : o.ADMeta with
      | none => rw [ho2] at hne; exact absurd rfl hne
      | some l =>
        rw [ho2] at hne hd
        cases l with
        | nil => exact absurd rfl hne
        | cons e rest =>
          have h1 : (AddADMeta.step s e).ADMeta = some [e] := by
            unfold AddADMeta.step
            rw [hs]
            rfl
          have h2 := AddADMeta.foldl_append rest [e] (AddADMeta.step s e) h1 hd
          unfold AddADMeta
          rw [ho2]
          exact h2
  · intro hs e
    exact hs ((AddADMeta.foldl_eq_none _ s).mp e).1

/-- C19: the result of `s.AddADMeta(o)` does not depend on the order in which the entries of
`o.ADMeta` are visited: over any two enumerations of these entries the loop leaves `s` with
the same `ADMeta` and the same other fields, which are those `AddADMeta` yields. -/
theorem AddADMeta_order_independent (s o : State FileInfo StateOS) (l1 l2 : Entries)
    (hd : Entries.Distinct (GoMap.range o.ADMeta))
    (h1 : l1.Perm (GoMap.range o.ADMeta)) (h2 : l2.Perm (GoMap.range o.ADMeta)) :
    GoMap.Same (AddADMeta.over s l1).ADMeta (AddADMeta.over s l2).ADMeta ∧
    GoMap.Same (AddADMeta.over s l1).ADMeta (AddADMeta s o).ADMeta ∧
    AddADMeta.over s l1 = { AddADMeta.over s l2 with ADMeta := (AddADMeta.over s l1).ADMeta } ∧
    AddADMeta s o = AddADMeta.over s (GoMap.range o.ADMeta) := by
  have key : ∀ l : Entries, l.Perm (GoMap.range o.ADMeta) →
      GoMap.Same (AddADMeta.over s l).ADMeta (AddADMeta s o).ADMeta := by
    intro l hl
    have hdl : Entries.Distinct l := by
      unfold Entries.Distinct at hd ⊢
      exact (hl.map Prod.fst).nodup_iff.mpr hd
    constructor
    · unfold AddADMeta.over AddADMeta
      rw [AddADMeta.foldl_eq_none, AddADMeta.foldl_eq_none]
      constructor
      · rintro ⟨a, b⟩
        exact ⟨a, by rw [b] at hl; exact hl.symm.eq_nil⟩
      · rintro ⟨a, b⟩
        exact ⟨a, by rw [b] at hl; exact hl.eq_nil⟩
    · intro k
      unfold AddADMeta.over AddADMeta
      rw [AddADMeta.lookup_foldl, AddADMeta.lookup_foldl, Entries.lookup_perm l _ hl hdl k]
  have k1 := key l1 h1
  have k2 := key l2 h2
  refine ⟨⟨k1.1.trans k2.1.symm, fun k => (k1.2 k).trans (k2.2 k).symm⟩, k1, ?_, rfl⟩
  obtain ⟨m1, e1⟩ := AddADMeta.foldl_frame_exists l1 s
  obtain ⟨m2, e2⟩ := AddADMeta.foldl_frame_exists l2 s
  unfold AddADMeta.over
  rw [e1, e2]

/-- C19 for a source holding `a ↦ 1`, `b ↦ 2`, visited as `a, b` and as `b, a`. -/
theorem AddADMeta_order_independent_witness :
    GoMap.Same
      (AddADMeta.over (⟨"x", "", false, (), "/p", 0, 0, -1, "log", none, (), "n",
        some [("b", "0")]⟩ : State Unit Unit) [("a", "1"), ("b", "2")]).ADMeta
      (AddADMeta.over (⟨"x", "", false, (), "/p", 0, 0, -1, "log", none, (), "n",
        some [("b", "0")]⟩ : State Unit Unit) [("b", "2"), ("a", "1")]).ADMeta :=
  (AddADMeta_order_independent
    (⟨"x", "", false, (), "/p", 0, 0, -1, "log", none, (), "n", some [("b", "0")]⟩ :
      State Unit Unit)
    ⟨"y", "", false, (), "/q", 0, 0, -1, "log", none, (), "n", some [("a", "1"), ("b", "2")]⟩
    [("a", "1"), ("b", "2")] [("b", "2"), ("a", "1")]
    (by decide) (List.Perm.refl _) (List.Perm.swap _ _ _)).1

/-- C20: merging `B` and then `C` into `A` leaves `A` with the same `ADMeta` as merging `C`
into `B` first and then that `B` into `A`; for a key that occurs in several of them the
value kept is the one of `A`, else the one of `B`, else the one of `C`. -/
theorem AddADMeta_assoc (A B C : State FileInfo StateOS) :
    GoMap.Same (AddADMeta (AddADMeta A B) C).ADMeta (AddADMeta A (AddADMeta B C)).ADMeta ∧
    (∀ k, GoMap.lookup (AddADMeta (AddADMeta A B) C).ADMeta k =
      (GoMap.lookup A.ADMeta k).orElse (fun _ =>
        (GoMap.lookup B.ADMeta k).orElse (fun _ => GoMap.lookup C.ADMeta k))) ∧
    (∀ k, GoMap.lookup (AddADMeta A (AddADMeta B C)).ADMeta k =
      (GoMap.lookup A.ADMeta k).orElse (fun _ =>
        (GoMap.lookup B.ADMeta k).orElse (fun _ => GoMap.lookup C.ADMeta k))) := by
  have hl : ∀ (X Y : State FileInfo StateOS) (k : String),
      GoMap.lookup (AddADMeta X Y).ADMeta k =
        (GoMap.lookup X.ADMeta k).orElse (fun _ => GoMap.lookup Y.ADMeta k) := by
    intro X Y k
    unfold AddADMeta
    rw [AddADMeta.lookup_foldl, GoMap.lookup_range]
    cases GoMap.lookup X.ADMeta k <;> rfl
  have hL : ∀ k, GoMap.lookup (AddADMeta (AddADMeta A B) C).ADMeta k =
      (GoMap.lookup A.ADMeta k).orElse (fun _ =>
        (GoMap.lookup B.ADMeta k).orElse (fun _ => GoMap.lookup C.ADMeta k)) := by
    intro k
    rw [hl, hl]
    cases GoMap.lookup A.ADMeta k <;> rfl
  have hR : ∀ k, GoMap.lookup (AddADMeta A (AddADMeta B C)).ADMeta k =
      (GoMap.lookup A.ADMeta k).orElse (fun _ =>
        (GoMap.lookup B.ADMeta k).orElse (fun _ => GoMap.lookup C.ADMeta k)) := by
    intro k
    rw [hl, hl]
  refine ⟨⟨?_, fun k => (hL k).trans (hR k).symm⟩, hL, hR⟩
  unfold AddADMeta
  rw [AddADMeta.foldl_eq_none, AddADMeta.foldl_eq_none, AddADMeta.foldl_eq_none,
    AddADMeta.foldl_range_eq_nil]
  constructor
  · rintro ⟨⟨a, b⟩, c⟩
    exact ⟨a, b, c⟩
  · rintro ⟨a, b, c⟩
    exact ⟨⟨a, b⟩, c⟩

end file

/-! ## Properties of the ACK tracker and the ACK handler -/

namespace awss3

open eventACKTracker

/-- What a decrement within the pending count does to a tracker. -/
theorem eventACKTracker.ACKn_of_le (a : eventACKTracker) (n : Nat)
    (h : (n : Int) ≤ a.pendingACKs) :
    ∃ b, a.ACKn n = Except.ok b ∧ b.pendingACKs = a.pendingACKs - n ∧
      (a.canceled = true → b.canceled = true) ∧
      (b.pendingACKs = 0 → b.canceled = true) := by
  have hlt : ¬ a.pendingACKs < (n : Int) := not_lt.mpr h
  by_cases hz : a.pendingACKs - (n : Int) = 0
  · refine ⟨({ a with pendingACKs := a.pendingACKs - n } : eventACKTracker).cancel
      Cause.completed, ?_, ?_, ?_, ?_⟩
    · simp [ACKn, hlt, hz]
    · unfold cancel; split <;> rfl
    · intro hc
      unfold canceled at hc
      unfold cancel canceled
      split
      · simpa using hc
      · rfl
    · intro _
      unfold cancel canceled
      split
      · rename_i c hs
        have hs1 : a.signal = some c := hs
        rw [hs1]
        rfl
      · rfl
  · refine ⟨{ a with pendingACKs := a.pendingACKs - n }, ?_, rfl, ?_, ?_⟩
    · simp [ACKn, hlt, hz]
    · intro hc; exact hc
    · intro h0; exact absurd h0 hz

/-- A run of `Add` calls adds up the amounts and leaves the signal alone. -/
theorem eventACKTracker.Adds_pending (ns : List Nat) (a : eventACKTracker) :
    (a.Adds ns).pendingACKs = a.pendingACKs + (ns.sum : Nat) ∧
      (a.Adds ns).signal = a.signal := by
  induction ns generalizing a with
  | nil => simp [Adds]
  | cons n rest ih =>
    have h := ih (a.Add n)
    unfold Adds at h ⊢
    rw [List.foldl_cons, h.1, h.2]
    constructor
    · simp only [Add, List.sum_cons, Nat.cast_add]; ring
    · rfl

/-- As many `ACK()` calls as there are pending events bring the count to 0 and cancel the
signal. -/
theorem eventACKTracker.ACKtimes_all (n : Nat) (a : eventACKTracker)
    (h : a.pendingACKs = ((n + 1 : Nat) : Int)) :
    ∃ b, ACKtimes (n + 1) a = Except.ok b ∧ b.pendingACKs = 0 ∧ b.canceled = true := by
  induction n generalizing a with
  | zero =>
    obtain ⟨b, hb, hp, _, hc⟩ := a.ACKn_of_le 1 (by rw [h])
    have hb0 : b.pendingACKs = 0 := by rw [hp, h]; norm_num
    refine ⟨b, ?_, hb0, hc hb0⟩
    unfold ACKtimes ACK
    rw [hb]
    rfl
  | succ m ih =>
    obtain ⟨b, hb, hp, _, _⟩ := a.ACKn_of_le 1 (by rw [h]; push_cast; omega)
    have hb1 : b.pendingACKs = ((m + 1 : Nat) : Int) := by rw [hp, h]; push_cast; ring
    obtain ⟨c, hc, hc0, hcc⟩ := ih b hb1
    refine ⟨c, ?_, hc0, hcc⟩
    rw [← hc]
    conv_lhs => unfold ACKtimes ACK
    rw [hb]

/-- C8: on a fresh tracker whose parent context is not canceled, once `Add` calls have
registered `n ≥ 1` pending events in all and `ACK()` has been called `n` times, every call
has succeeded, `pendingACKs` is 0 and the lifetime signal is canceled. -/
theorem ACK_completion (ns : List Nat) (n : Nat) (hn : 1 ≤ n) (hs : ns.sum = n) :
    ∃ b, ACKtimes n ((newEventACKTracker false).Adds ns) = Except.ok b ∧
      b.pendingACKs = 0 ∧ b.canceled = true := by
  obtain ⟨m, rfl⟩ : ∃ m, n = m + 1 := ⟨n - 1, by omega⟩
  apply eventACKTracker.ACKtimes_all
  rw [(eventACKTracker.Adds_pending ns _).1, hs]
  simp [newEventACKTracker]

/-- C8 for three events registered as `Add(1)` and `Add(2)`. -/
theorem ACK_completion_witness :
    ([1, 2] : List Nat).sum = 3 ∧
    ∃ b, ACKtimes 3 ((newEventACKTracker false).Adds [1, 2]) = Except.ok b ∧
      b.pendingACKs = 0 ∧ b.canceled = true :=
  ⟨by decide, ACK_completion [1, 2] 3 (by decide) (by decide)⟩

/-- C9: on a fresh tracker on which `Add` was never called, `Wait()` returns, and afterwards
`pendingACKs` is 0 and the lifetime signal is canceled, also when the parent context was
never canceled. -/
theorem Wait_without_Add (parentCanceled : Bool) :
    ∃ b, (newEventACKTracker parentCanceled).Wait = some b ∧
      b.pendingACKs = 0 ∧ b.canceled = true := by
  cases parentCanceled
  · exact ⟨_, rfl, rfl, rfl⟩
  · exact ⟨_, rfl, rfl, rfl⟩

/-- What one decrement call within the pending count does to the trackers. -/
theorem ackAt_of_le (heap : Heap) (r : Ref) (n : Nat) (h : (n : Int) ≤ (heap r).pendingACKs) :
    ∃ heap1, ackAt heap r n = Except.ok heap1 ∧ ∀ q,
      (heap1 q).pendingACKs = (heap q).pendingACKs - ((if q = r then n else 0 : Nat) : Int) ∧
      ((heap q).canceled = true → (heap1 q).canceled = true) ∧
      (q = r → (heap1 q).pendingACKs = 0 → (heap1 q).canceled = true) := by
  obtain ⟨b, hb, hp, hm, hc⟩ := (heap r).ACKn_of_le n h
  refine ⟨Function.update heap r b, ?_, ?_⟩
  · unfold ackAt
    rw [hb]
  · intro q
    by_cases hq : q = r
    · subst hq
      simp only [Function.update_same, if_true]
      exact ⟨hp, hm, fun _ => hc⟩
    · simp only [Function.update_noteq hq, if_neg hq]
      exact ⟨by simp, fun x => x, fun e => absurd e hq⟩

/-- What the walk over acknowledged positions does when every tracker has enough pending
events: each tracker is decremented by the number of positions that are its own. -/
theorem walkRun_of_le (rest : List Ref) : ∀ (cur : Ref) (len : Nat) (heap : Heap),
    (∀ r, ((rest.count r + (if r = cur then len else 0) : Nat) : Int) ≤ (heap r).pendingACKs) →
    ∃ heap1, walkRun cur len rest heap = Except.ok heap1 ∧ ∀ r,
      (heap1 r).pendingACKs =
        (heap r).pendingACKs - ((rest.count r + (if r = cur then len else 0) : Nat) : Int) ∧
      ((heap r).canceled = true → (heap1 r).canceled = true) ∧
      (0 < rest.count r + (if r = cur then len else 0) → (heap1 r).pendingACKs = 0 →
        (heap1 r).canceled = true) := by
  induction rest with
  | nil =>
    intro cur len heap h
    have hc : (len : Int) ≤ (heap cur).pendingACKs := by simpa using h cur
    obtain ⟨heap1, h1, h2⟩ := ackAt_of_le heap cur len hc
    refine ⟨heap1, by simpa [walkRun] using h1, ?_⟩
    intro r
    obtain ⟨a1, a2, a3⟩ := h2 r
    refine ⟨by simpa using a1, a2, ?_⟩
    intro hpos
    by_cases hr : r = cur
    · exact a3 hr
    · simp [hr] at hpos
  | cons r0 rest ih =>
    intro cur len heap h
    by_cases h0 : r0 = cur
    · subst h0
      have hcnt : ∀ r, rest.count r + (if r = r0 then len + 1 else 0) =
          (r0 :: rest).count r + (if r = r0 then len else 0) := by
        intro r
        by_cases hr : r = r0
        · subst hr; simp; omega
        · have hr2 : r0 ≠ r := fun e => hr e.symm
          simp [hr, List.count_cons_of_ne hr]
      obtain ⟨heap1, h1, h2⟩ := ih r0 (len + 1) heap (by intro r; rw [hcnt]; exact h r)
      refine ⟨heap1, by simpa [walkRun] using h1, ?_⟩
      intro r
      have := h2 r
      rw [hcnt] at this
      exact this
    · have hc : (len : Int) ≤ (heap cur).pendingACKs := by
        have := h cur
        simp only [if_true] at this
        push_cast at this
        have hnn : (0 : Int) ≤ (((r0 :: rest).count cur : Nat) : Int) := Int.natCast_nonneg _
        linarith
      obtain ⟨heap1, h1, h2⟩ := ackAt_of_le heap cur len hc
      have hcnt : ∀ r, rest.count r + (if r = r0 then 1 else 0) = (r0 :: rest).count r := by
        intro r
        by_cases hr : r = r0
        · subst hr; simp
        · simp [hr, List.count_cons_of_ne hr]
      have hle : ∀ r, ((rest.count r + (if r = r0 then 1 else 0) : Nat) : Int) ≤
          (heap1 r).pendingACKs := by
        intro r
        rw [hcnt, (h2 r).1]
        have := h r
        push_cast at this ⊢
        linarith
      obtain ⟨heap2, h3, h4⟩ := ih r0 1 heap1 hle
      refine ⟨heap2, ?_, ?_⟩
      · simp only [walkRun, if_neg h0, h1]
        exact h3
      · intro r
        obtain ⟨a1, a2, a3⟩ := h2 r
        obtain ⟨b1, b2, b3⟩ := h4 r
        rw [hcnt] at b1 b3
        refine ⟨?_, fun x => b2 (a2 x), ?_⟩
        · rw [b1, a1]; push_cast; ring
        · intro hpos hz
          by_cases hp : 0 < (r0 :: rest).count r
          · exact b3 hp hz
          · have hzero : (r0 :: rest).count r = 0 := by omega
            have hr : r = cur := by
              by_contra hne
              simp [hne, hzero] at hpos
            have h10 : (heap1 r).pendingACKs = 0 := by
              rw [b1, hzero] at hz
              simpa using hz
            exact b2 (a3 hr h10)

/-- The walk over an acknowledged prefix, when every tracker has enough pending events. -/
theorem walk_of_le (l : List Ref) (heap : Heap)
    (h : ∀ r, ((l.count r : Nat) : Int) ≤ (heap r).pendingACKs) :
    ∃ heap1, walk l heap = Except.ok heap1 ∧ ∀ r,
      (heap1 r).pendingACKs = (heap r).pendingACKs - ((l.count r : Nat) : Int) ∧
      (0 < l.count r → (heap1 r).pendingACKs = 0 → (heap1 r).canceled = true) := by
  cases l with
  | nil => exact ⟨heap, rfl, fun r => ⟨by simp, fun hpos => absurd hpos (by simp)⟩⟩
  | cons r0 rest =>
    have hcnt : ∀ r, rest.count r + (if r = r0 then 1 else 0) = (r0 :: rest).count r := by
      intro r
      by_cases hr : r = r0
      · subst hr; simp
      · simp [hr, List.count_cons_of_ne hr]
    obtain ⟨heap1, h1, h2⟩ := walkRun_of_le rest r0 1 heap (by intro r; rw [hcnt]; exact h r)
    refine ⟨heap1, h1, ?_⟩
    intro r
    have := h2 r
    rw [hcnt] at this
    exact ⟨this.1, this.2.2⟩

/-- Recording accepted events appends their trackers in arrival order and touches no
tracker. -/
theorem eventACKHandler.AddEvents_accepted (es : List Event) :
    ∀ (h : eventACKHandler) (heap : Heap), h.AddEvents heap es =
      Except.ok ({ outstanding := h.outstanding ++ es.map Event.Private }, heap) := by
  induction es with
  | nil => intro h heap; simp [eventACKHandler.AddEvents]
  | cons e rest ih =>
    intro h heap
    simp [eventACKHandler.AddEvents, eventACKHandler.AddEvent, ih]

/-- C10 as stated fails: with one recorded event whose tracker has nothing pending,
`ACKEvents(1)` reports a contract violation and decrements nothing; and with `Add(0)`, no
recorded event and `ACKEvents(0)`, the tracker ends with `pendingACKs == 0` and a signal
that is not canceled. -/
theorem ACKEvents_counterexample :
    (newEventACKHandler.AddEvents (fun _ => newEventACKTracker false) [⟨0⟩] =
      Except.ok (⟨[0]⟩, fun _ => newEventACKTracker false)) ∧
    (eventACKHandler.ACKEvents ⟨[0]⟩ (fun _ => newEventACKTracker false) 1 =
      Except.error Violation.negativeCounter) ∧
    (¬ ∃ h2 heap2, eventACKHandler.ACKEvents ⟨[0]⟩ (fun _ => newEventACKTracker false) 1 =
        Except.ok (h2, heap2) ∧
      (heap2 0).pendingACKs = (newEventACKTracker false).pendingACKs - 1) ∧
    (∃ heap2, newEventACKHandler.ACKEvents (fun _ => (newEventACKTracker false).Add 0) 0 =
        Except.ok (newEventACKHandler, heap2) ∧
      (heap2 0).pendingACKs = 0 ∧ (heap2 0).canceled = false) := by
  have h2 : eventACKHandler.ACKEvents ⟨[0]⟩ (fun _ => newEventACKTracker false) 1 =
      Except.error Violation.negativeCounter := rfl
  refine ⟨rfl, h2, ?_, ⟨_, rfl, rfl, rfl⟩⟩
  rintro ⟨a, b, hab, _⟩
  rw [h2] at hab
  cases hab

/-- C10, amended: when every tracker has at least as many pending events as positions that
reference it among the first `n` recorded events, `ACKEvents(n)` succeeds, takes the first
`n` positions out of the outstanding sequence and decreases each tracker's `pendingACKs` by
the number of those positions that reference it; a tracker referenced by `k ≥ 1` of them
with exactly `k` pending ends with `pendingACKs == 0` and a canceled signal. -/
theorem ACKEvents_routes (h : eventACKHandler) (heap : Heap) (es : List Event) (n : Nat)
    (hn : n ≤ (h.outstanding ++ es.map Event.Private).length)
    (hp : ∀ r, (((h.outstanding ++ es.map Event.Private).take n).count r : Int) ≤
      (heap r).pendingACKs) :
    ∃ h1 h2 heap2, h.AddEvents heap es = Except.ok (h1, heap) ∧
      h1.outstanding = h.outstanding ++ es.map Event.Private ∧
      h1.ACKEvents heap n = Except.ok (h2, heap2) ∧
      h2.outstanding = (h.outstanding ++ es.map Event.Private).drop n ∧
      ∀ r,
        (heap2 r).pendingACKs = (heap r).pendingACKs -
          (((h.outstanding ++ es.map Event.Private).take n).count r : Int) ∧
        (0 < ((h.outstanding ++ es.map Event.Private).take n).count r →
          (heap r).pendingACKs =
            (((h.outstanding ++ es.map Event.Private).take n).count r : Int) →
          (heap2 r).pendingACKs = 0 ∧ (heap2 r).canceled = true) := by
  obtain ⟨heap2, hw, hr⟩ := walk_of_le _ heap hp
  refine ⟨{ outstanding := h.outstanding ++ es.map Event.Private },
    { outstanding := (h.outstanding ++ es.map Event.Private).drop n }, heap2,
    eventACKHandler.AddEvents_accepted es h heap, rfl, ?_, rfl, ?_⟩
  · unfold eventACKHandler.ACKEvents
    rw [if_neg (not_lt.mpr hn)]
    simp only [hw]
  · intro r
    obtain ⟨a1, a2⟩ := hr r
    refine ⟨a1, fun hpos he => ?_⟩
    have hz : (heap2 r).pendingACKs = 0 := by rw [a1, he]; ring
    exact ⟨hz, a2 hpos hz⟩

/-- C10 on the handler test: a tracker with `Add(1)`, its one event recorded, `ACKEvents(1)`. -/
theorem ACKEvents_routes_witness :
    ∃ h1 h2 heap2,
      newEventACKHandler.AddEvents (fun _ => (newEventACKTracker false).Add 1) [⟨0⟩] =
        Except.ok (h1, fun _ => (newEventACKTracker false).Add 1) ∧
      h1.ACKEvents (fun _ => (newEventACKTracker false).Add 1) 1 = Except.ok (h2, heap2) ∧
      h2.outstanding = [] ∧
      (heap2 0).pendingACKs = 0 ∧ (heap2 0).canceled = true := by
  have hp : ∀ r : Ref, ((((newEventACKHandler.outstanding ++
      ([⟨0⟩] : List Event).map Event.Private).take 1).count r : Nat) : Int) ≤
      ((fun _ => (newEventACKTracker false).Add 1 : Heap) r).pendingACKs := by
    intro r
    by_cases hr : r = 0
    · subst hr; decide
    · have hc : (((newEventACKHandler.outstanding ++
          ([⟨0⟩] : List Event).map Event.Private).take 1).count r) = 0 := by
        simp [newEventACKHandler, List.count_cons_of_ne hr]
      rw [hc]
      show ((0 : Nat) : Int) ≤ ((newEventACKTracker false).Add 1).pendingACKs
      decide
  obtain ⟨h1, h2, heap2, e1, _, e2, e3, e4⟩ :=
    ACKEvents_routes newEventACKHandler (fun _ => (newEventACKTracker false).Add 1)
      [⟨0⟩] 1 (by decide) hp
  exact ⟨h1, h2, heap2, e1, e2, e3, ((e4 0).2 (by decide) (by decide)).1,
    ((e4 0).2 (by decide) (by decide)).2⟩

/-! ### Sequences of calls on one tracker -/

theorem eventACKTracker.cancel_pendingACKs (a : eventACKTracker) (c : Cause) :
    (a.cancel c).pendingACKs = a.pendingACKs := by
  unfold cancel; split <;> rfl

theorem eventACKTracker.cancel_added (a : eventACKTracker) (c : Cause) :
    (a.cancel c).added = a.added := by
  unfold cancel; split <;> rfl

theorem eventACKTracker.cancel_canceled (a : eventACKTracker) (c : Cause) :
    (a.cancel c).canceled = true := by
  unfold cancel canceled
  split
  · rename_i x hs
    rw [hs]; rfl
  · rfl

/-- What a successful `ACK(n)` does: the count was at least `n` and goes down by `n`, and
the signal is canceled afterwards exactly if it was before or the count has come to 0. -/
theorem eventACKTracker.ACKn_ok (a b : eventACKTracker) (n : Nat)
    (h : a.ACKn n = Except.ok b) :
    (n : Int) ≤ a.pendingACKs ∧ b.pendingACKs = a.pendingACKs - n ∧ b.added = a.added ∧
    (b.canceled = true ↔ a.canceled = true ∨ b.pendingACKs = 0) := by
  unfold ACKn at h
  by_cases hlt : a.pendingACKs < (n : Int)
  · rw [if_pos hlt] at h
    cases h
  · rw [if_neg hlt] at h
    have hle : (n : Int) ≤ a.pendingACKs := not_lt.mp hlt
    by_cases hz : a.pendingACKs - (n : Int) = 0
    · simp only [hz, if_true] at h
      injection h with h
      subst h
      refine ⟨hle, ?_, ?_, ?_⟩
      · rw [cancel_pendingACKs]; exact hz.symm
      · rw [cancel_added]
      · rw [cancel_canceled, cancel_pendingACKs]
        simp
    · simp only [hz, if_false] at h
      injection h with h
      subst h
      refine ⟨hle, rfl, rfl, ?_⟩
      constructor
      · intro hc; exact Or.inl hc
      · rintro (hc | hc)
        · exact hc
        · exact absurd hc hz

/-- An `ACK(n)` for more than is pending is rejected as a contract violation. -/
theorem eventACKTracker.ACKn_of_lt (a : eventACKTracker) (n : Nat)
    (h : a.pendingACKs < (n : Int)) : a.ACKn n = Except.error Violation.negativeCounter := by
  unfold ACKn
  rw [if_pos h]

/-- The effect of a `Wait()` call on the tracker. -/
theorem Call.apply_wait (a : eventACKTracker) :
    Call.wait.apply a = Except.ok (if a.added = true then a else a.cancel Cause.completed) := by
  unfold Call.apply Wait
  by_cases ha : a.added = true
  · simp only [ha, if_true]
    cases hc : a.canceled <;> simp
  · simp only [ha]
    simp [cancel_canceled]

/-- What one call does to the count, to the `Add` mark and to the signal. -/
theorem Call.apply_ok (c : Call) (a b : eventACKTracker) (h : c.apply a = Except.ok b) :
    (0 ≤ a.pendingACKs → 0 ≤ b.pendingACKs) ∧
    (a.added = true → b.added = true) ∧
    (b.canceled = true ↔ a.canceled = true ∨ c.cancels a b = true) := by
  cases c with
  | add n =>
    injection h with h
    subst h
    refine ⟨fun h0 => ?_, fun _ => rfl, ?_⟩
    · have : (0 : Int) ≤ (n : Int) := Int.natCast_nonneg n
      show 0 ≤ a.pendingACKs + (n : Int)
      omega
    · simp [Call.cancels, eventACKTracker.Add, canceled]
  | ack =>
    obtain ⟨h1, h2, h3, h4⟩ := eventACKTracker.ACKn_ok a b 1 h
    refine ⟨fun _ => by omega, fun x => by rw [h3]; exact x, ?_⟩
    rw [h4]
    simp [Call.cancels]
  | ackN n =>
    obtain ⟨h1, h2, h3, h4⟩ := eventACKTracker.ACKn_ok a b n h
    refine ⟨fun _ => by omega, fun x => by rw [h3]; exact x, ?_⟩
    rw [h4]
    simp [Call.cancels]
  | wait =>
    rw [Call.apply_wait] at h
    injection h with h
    subst h
    by_cases ha : a.added = true
    · simp [ha, Call.cancels]
    · rw [if_neg ha]
      refine ⟨fun h0 => by rw [cancel_pendingACKs]; exact h0, fun x => absurd x ha, ?_⟩
      rw [cancel_canceled]
      simp [Call.cancels, ha]

/-- Along a sequence of calls the count stays non-negative. -/
theorem runCalls_nonneg (calls : List Call) : ∀ (a b : eventACKTracker),
    0 ≤ a.pendingACKs → runCalls calls a = Except.ok b → 0 ≤ b.pendingACKs := by
  induction calls with
  | nil =>
    intro a b h0 h
    injection h with h
    rw [← h]; exact h0
  | cons c rest ih =>
    intro a b h0 h
    unfold runCalls at h
    cases hc : c.apply a with
    | error e => rw [hc] at h; cases h
    | ok a1 =>
      rw [hc] at h
      exact ih a1 b ((Call.apply_ok c a a1 hc).1 h0) h

/-- After a sequence of calls the signal is canceled exactly if it was canceled before or
there has been an occasion for it to fire. -/
theorem runCalls_canceled (calls : List Call) : ∀ (a b : eventACKTracker),
    runCalls calls a = Except.ok b →
    (b.canceled = true ↔ a.canceled = true ∨ cancelDue calls a = true) := by
  induction calls with
  | nil =>
    intro a b h
    injection h with h
    rw [← h]
    simp [cancelDue]
  | cons c rest ih =>
    intro a b h
    unfold runCalls at h
    unfold cancelDue
    cases hc : c.apply a with
    | error e => rw [hc] at h; cases h
    | ok a1 =>
      rw [hc] at h
      rw [ih a1 b h, (Call.apply_ok c a a1 hc).2.2]
      simp [or_assoc]

/-- The signal fires once if it goes from not canceled to canceled, and never otherwise. -/
theorem runCalls_firings (calls : List Call) : ∀ (a b : eventACKTracker),
    runCalls calls a = Except.ok b →
    (if a.canceled = true then 1 else 0) + firings calls a =
      (if b.canceled = true then 1 else 0) := by
  induction calls with
  | nil =>
    intro a b h
    injection h with h
    rw [← h]
    simp [firings]
  | cons c rest ih =>
    intro a b h
    unfold runCalls at h
    unfold firings
    cases hc : c.apply a with
    | error e => rw [hc] at h; cases h
    | ok a1 =>
      rw [hc] at h
      have h1 := ih a1 b h
      have h2 := (Call.apply_ok c a a1 hc).2.2
      simp only
      rw [← h1]
      cases hx : a.canceled with
      | true =>
        have : a1.canceled = true := h2.mpr (Or.inl hx)
        simp [this]
      | false =>
        cases hy : a1.canceled <;> simp

/-- C11 as stated fails: `ACK(0)` on a fresh tracker cancels the signal although no
increment was ever made and `Wait` was not called; and after `Add(0)`, which increments
nothing, `Wait` does not cancel the signal (and blocks). -/
theorem signal_canceled_counterexample :
    (runCalls [Call.ackN 0] (newEventACKTracker false) =
        Except.ok ⟨0, false, some Cause.completed⟩ ∧
      (⟨0, false, some Cause.completed⟩ : eventACKTracker).canceled = true) ∧
    (runCalls [Call.add 0, Call.wait] (newEventACKTracker false) = Except.ok ⟨0, true, none⟩ ∧
      (⟨0, true, none⟩ : eventACKTracker).canceled = false ∧
      (⟨0, true, none⟩ : eventACKTracker).Wait = none) := by
  refine ⟨⟨rfl, rfl⟩, rfl, rfl, rfl⟩

/-- C11, amended: on a tracker whose parent context is never canceled, after any sequence
of `Add(n)`, `ACK()`, `ACK(n)` and `Wait()` calls the lifetime signal is canceled exactly if
an `ACK` of the sequence has left `pendingACKs` at 0 or a `Wait` was called while `Add` had
never been called. So in a reachable state with a positive count and no such occasion
before, the signal is not canceled; once canceled it stays canceled, and it fires at most
once; an `ACK(n)` with `n ≥ 1` that succeeds finds a count of at least 1; and `Wait` blocks
exactly when `Add` was called and the signal is not canceled. -/
theorem signal_canceled_iff_cancelDue (calls : List Call) (a : eventACKTracker)
    (h : runCalls calls (newEventACKTracker false) = Except.ok a) :
    (a.canceled = true ↔ cancelDue calls (newEventACKTracker false) = true) ∧
    (0 < a.pendingACKs → cancelDue calls (newEventACKTracker false) = false →
      a.canceled = false) ∧
    (∀ (more : List Call) (b : eventACKTracker), a.canceled = true →
      runCalls more a = Except.ok b → b.canceled = true) ∧
    firings calls (newEventACKTracker false) = (if a.canceled = true then 1 else 0) ∧
    (∀ (n : Nat) (b : eventACKTracker), 1 ≤ n → a.ACKn n = Except.ok b →
      1 ≤ a.pendingACKs) ∧
    (a.Wait = none ↔ (a.added = true ∧ a.canceled = false)) ∧
    (∃ w, (newEventACKTracker false).Wait = some w ∧ w.canceled = true) := by
  have key := runCalls_canceled calls (newEventACKTracker false) a h
  have hfresh : (newEventACKTracker false).canceled = false := rfl
  have hiff : a.canceled = true ↔ cancelDue calls (newEventACKTracker false) = true := by
    rw [key, hfresh]
    simp
  refine ⟨hiff, ?_, ?_, ?_, ?_, ?_, ⟨_, rfl, rfl⟩⟩
  · intro _ hz
    cases hc : a.canceled with
    | false => rfl
    | true => rw [hiff.mp hc] at hz; cases hz
  · intro more b hc hb
    exact (runCalls_canceled more a b hb).mpr (Or.inl hc)
  · have hf := runCalls_firings calls (newEventACKTracker false) a h
    rw [hfresh] at hf
    simpa using hf
  · intro n b hn hb
    obtain ⟨h1, _⟩ := eventACKTracker.ACKn_ok a b n hb
    have : (1 : Int) ≤ (n : Int) := by exact_mod_cast hn
    omega
  · unfold Wait
    by_cases ha : a.added = true
    · simp only [ha, if_true]
      cases hc : a.canceled <;> simp
    · simp only [ha]
      simp [cancel_canceled]

/-- C11 on the calls `Add(2)`, `Wait()`, `ACK()`, `ACK(1)`. -/
theorem signal_canceled_iff_cancelDue_witness :
    runCalls [Call.add 2, Call.wait, Call.ack, Call.ackN 1] (newEventACKTracker false) =
      Except.ok ⟨0, true, some Cause.completed⟩ ∧
    ((⟨0, true, some Cause.completed⟩ : eventACKTracker).canceled = true ↔
      cancelDue [Call.add 2, Call.wait, Call.ack, Call.ackN 1] (newEventACKTracker false) =
        true) :=
  ⟨rfl, (signal_canceled_iff_cancelDue [Call.add 2, Call.wait, Call.ack, Call.ackN 1]
    ⟨0, true, some Cause.completed⟩ rfl).1⟩

/-- A decrement call on one tracker keeps every count non-negative. -/
theorem ackAt_nonneg (heap heap1 : Heap) (r : Ref) (n : Nat)
    (h0 : ∀ q, 0 ≤ (heap q).pendingACKs) (h : ackAt heap r n = Except.ok heap1) :
    ∀ q, 0 ≤ (heap1 q).pendingACKs := by
  unfold ackAt at h
  cases hA : (heap r).ACKn n with
  | error e => rw [hA] at h; cases h
  | ok b =>
    rw [hA] at h
    injection h with h
    subst h
    obtain ⟨h1, h2, _, _⟩ := eventACKTracker.ACKn_ok (heap r) b n hA
    intro q
    by_cases hq : q = r
    · subst hq
      rw [Function.update_same]
      omega
    · rw [Function.update_noteq hq]
      exact h0 q

/-- The walk over acknowledged positions keeps every count non-negative. -/
theorem walkRun_nonneg (rest : List Ref) : ∀ (cur : Ref) (len : Nat) (heap heap1 : Heap),
    (∀ q, 0 ≤ (heap q).pendingACKs) → walkRun cur len rest heap = Except.ok heap1 →
    ∀ q, 0 ≤ (heap1 q).pendingACKs := by
  induction rest with
  | nil =>
    intro cur len heap heap1 h0 h
    exact ackAt_nonneg heap heap1 cur len h0 h
  | cons r0 rest ih =>
    intro cur len heap heap1 h0 h
    unfold walkRun at h
    by_cases hr : r0 = cur
    · rw [if_pos hr] at h
      exact ih cur (len + 1) heap heap1 h0 h
    · rw [if_neg hr] at h
      cases ha : ackAt heap cur len with
      | error e => rw [ha] at h; cases h
      | ok heap2 =>
        rw [ha] at h
        exact ih r0 1 heap2 heap1 (ackAt_nonneg heap heap2 cur len h0 ha) h

/-- C12: after any sequence of `Add(n)`, `ACK()`, `ACK(n)` and `Wait()` calls on a tracker
`pendingACKs` is not negative. An `ACK()` issued when it is 0, and any `ACK(n)` for more
than is pending, is rejected as a fatal contract violation, and an `ACK(n)` that succeeds
leaves a count that is not negative; the decrement calls that `ACKEvents` and `AddEvent`
make on the trackers keep every count non-negative as well. -/
theorem pendingACKs_never_negative (parentCanceled : Bool) (calls : List Call)
    (a : eventACKTracker) (h : runCalls calls (newEventACKTracker parentCanceled) = Except.ok a) :
    0 ≤ a.pendingACKs ∧
    (a.pendingACKs = 0 → a.ACK = Except.error Violation.negativeCounter) ∧
    (∀ n : Nat, a.pendingACKs < (n : Int) →
      a.ACKn n = Except.error Violation.negativeCounter) ∧
    (∀ (n : Nat) (b : eventACKTracker), a.ACKn n = Except.ok b → 0 ≤ b.pendingACKs) ∧
    (∀ (hd hd2 : eventACKHandler) (heap heap2 : Heap) (n : Nat),
      (∀ r, 0 ≤ (heap r).pendingACKs) → hd.ACKEvents heap n = Except.ok (hd2, heap2) →
      ∀ r, 0 ≤ (heap2 r).pendingACKs) ∧
    (∀ (hd hd2 : eventACKHandler) (heap heap2 : Heap) (e : Event) (accepted : Bool),
      (∀ r, 0 ≤ (heap r).pendingACKs) → hd.AddEvent heap e accepted = Except.ok (hd2, heap2) →
      ∀ r, 0 ≤ (heap2 r).pendingACKs) := by
  have h0 : 0 ≤ a.pendingACKs :=
    runCalls_nonneg calls (newEventACKTracker parentCanceled) a (le_refl _) h
  refine ⟨h0, ?_, fun n hn => eventACKTracker.ACKn_of_lt a n hn, ?_, ?_, ?_⟩
  · intro hz
    apply eventACKTracker.ACKn_of_lt a 1
    rw [hz]
    decide
  · intro n b hb
    obtain ⟨h1, h2, _, _⟩ := eventACKTracker.ACKn_ok a b n hb
    omega
  · intro hd hd2 heap heap2 n hh he
    unfold eventACKHandler.ACKEvents at he
    split at he
    · cases he
    · cases hw : walk (hd.outstanding.take n) heap with
      | error e1 => rw [hw] at he; cases he
      | ok heap1 =>
        rw [hw] at he
        injection he with he
        injection he with he1 he2
        subst he2
        cases hl : hd.outstanding.take n with
        | nil =>
          rw [hl] at hw
          injection hw with hw
          subst hw
          exact hh
        | cons r0 rest =>
          rw [hl] at hw
          exact walkRun_nonneg rest r0 1 heap heap1 hh hw
  · intro hd hd2 heap heap2 e accepted hh he
    unfold eventACKHandler.AddEvent at he
    cases accepted with
    | true =>
      simp only [if_true] at he
      injection he with he
      injection he with he1 he2
      subst he2
      exact hh
    | false =>
      simp only [Bool.false_eq_true, if_false] at he
      cases ha : ackAt heap e.Private 1 with
      | error e1 => rw [ha] at he; cases he
      | ok heap1 =>
        rw [ha] at he
        injection he with he
        injection he with he1 he2
        subst he2
        exact ackAt_nonneg heap heap1 e.Private 1 hh ha

/-- C12 on the calls `Add(3)`, `ACK(2)`, `ACK()`. -/
theorem pendingACKs_never_negative_witness :
    runCalls [Call.add 3, Call.ackN 2, Call.ack] (newEventACKTracker false) =
      Except.ok ⟨0, true, some Cause.completed⟩ ∧
    (0 : Int) ≤ (⟨0, true, some Cause.completed⟩ : eventACKTracker).pendingACKs ∧
    (⟨0, true, some Cause.completed⟩ : eventACKTracker).ACK =
      Except.error Violation.negativeCounter :=
  ⟨rfl, (pendingACKs_never_negative false [Call.add 3, Call.ackN 2, Call.ack]
      ⟨0, true, some Cause.completed⟩ rfl).1,
    (pendingACKs_never_negative false [Call.add 3, Call.ackN 2, Call.ack]
      ⟨0, true, some Cause.completed⟩ rfl).2.1 rfl⟩

/-- A decrement call fails with a negative-counter violation only. -/
theorem ackAt_error (heap : Heap) (r : Ref) (n : Nat) (e : Violation)
    (h : ackAt heap r n = Except.error e) : e = Violation.negativeCounter := by
  by_cases hlt : (heap r).pendingACKs < (n : Int)
  · unfold ackAt eventACKTracker.ACKn at h
    rw [if_pos hlt] at h
    injection h with h
    exact h.symm
  · obtain ⟨b, hb, _⟩ := (heap r).ACKn_of_le n (not_lt.mp hlt)
    unfold ackAt at h
    rw [hb] at h
    cases h

/-- The walk fails with a negative-counter violation only. -/
theorem walkRun_error (rest : List Ref) : ∀ (cur : Ref) (len : Nat) (heap : Heap)
    (e : Violation), walkRun cur len rest heap = Except.error e →
    e = Violation.negativeCounter := by
  induction rest with
  | nil =>
    intro cur len heap e h
    exact ackAt_error heap cur len e h
  | cons r0 rest ih =>
    intro cur len heap e h
    unfold walkRun at h
    by_cases h0 : r0 = cur
    · rw [if_pos h0] at h
      exact ih cur (len + 1) heap e h
    · rw [if_neg h0] at h
      cases ha : ackAt heap cur len with
      | error e1 =>
        rw [ha] at h
        injection h with h
        rw [← h]
        exact ackAt_error heap cur len e1 ha
      | ok heap1 =>
        rw [ha] at h
        exact ih r0 1 heap1 e h

/-- C13: with `m` recorded outstanding events and `n > m`, `ACKEvents(n)` reports a contract
violation: it returns no result, and it does not behave like `ACKEvents(m)`. -/
theorem ACKEvents_over_acknowledged (h : eventACKHandler) (heap : Heap) (n : Nat)
    (hn : h.outstanding.length < n) :
    h.ACKEvents heap n = Except.error Violation.overAcknowledged ∧
    (∀ r, h.ACKEvents heap n ≠ Except.ok r) ∧
    h.ACKEvents heap n ≠ h.ACKEvents heap h.outstanding.length := by
  have h1 : h.ACKEvents heap n = Except.error Violation.overAcknowledged := by
    unfold eventACKHandler.ACKEvents
    rw [if_pos hn]
  refine ⟨h1, fun r hr => ?_, ?_⟩
  · rw [h1] at hr
    cases hr
  · rw [h1]
    intro he
    unfold eventACKHandler.ACKEvents at he
    rw [if_neg (lt_irrefl _)] at he
    cases hw : walk (h.outstanding.take h.outstanding.length) heap with
    | ok heap1 =>
      rw [hw] at he
      cases he
    | error e1 =>
      rw [hw] at he
      injection he with he
      have : e1 = Violation.negativeCounter := by
        cases hl : h.outstanding.take h.outstanding.length with
        | nil => rw [hl] at hw; cases hw
        | cons r0 rest =>
          rw [hl] at hw
          exact walkRun_error rest r0 1 heap e1 hw
      rw [this] at he
      cases he

/-- C13 with one recorded event and `ACKEvents(2)`. -/
theorem ACKEvents_over_acknowledged_witness :
    eventACKHandler.ACKEvents ⟨[0]⟩ (fun _ => (newEventACKTracker false).Add 1) 2 =
      Except.error Violation.overAcknowledged :=
  (ACKEvents_over_acknowledged ⟨[0]⟩ (fun _ => (newEventACKTracker false).Add 1) 2
    (by decide)).1

/-! ### Interleaved `Add(1)` and `ACK()` calls -/

/-- A sequence of `Add(1)` and `ACK()` calls in which no prefix holds more `ACK()` calls
than the count allows runs to its end; the count ends at the balance of the calls, and a
tracker on which `Add` was called and whose count is 0 has a canceled signal. -/
theorem runCalls_balanced (calls : List Call) : ∀ (a : eventACKTracker),
    (∀ c ∈ calls, c = Call.add 1 ∨ c = Call.ack) →
    0 ≤ a.pendingACKs →
    (∀ k, (((calls.take k).count Call.ack : Nat) : Int) ≤
      a.pendingACKs + (((calls.take k).count (Call.add 1) : Nat) : Int)) →
    (a.added = true → a.pendingACKs = 0 → a.canceled = true) →
    ∃ b, runCalls calls a = Except.ok b ∧
      b.pendingACKs = a.pendingACKs + ((calls.count (Call.add 1) : Nat) : Int) -
        ((calls.count Call.ack : Nat) : Int) ∧
      ((a.added = true ∨ 0 < calls.count (Call.add 1)) → b.added = true) ∧
      (b.added = true → b.pendingACKs = 0 → b.canceled = true) := by
  induction calls with
  | nil =>
    intro a _ _ _ hI
    refine ⟨a, rfl, by simp, ?_, hI⟩
    rintro (h | h)
    · exact h
    · simp at h
  | cons c rest ih =>
    intro a hm h0 hk hI
    have hrest : ∀ c ∈ rest, c = Call.add 1 ∨ c = Call.ack :=
      fun x hx => hm x (List.mem_cons_of_mem _ hx)
    rcases hm c (List.mem_cons_self _ _) with hc | hc
    · subst hc
      have hne : Call.ack ≠ Call.add 1 := by decide
      have hk1 : ∀ k, (((rest.take k).count Call.ack : Nat) : Int) ≤
          (a.Add 1).pendingACKs + (((rest.take k).count (Call.add 1) : Nat) : Int) := by
        intro k
        have := hk (k + 1)
        rw [List.take_succ_cons, List.count_cons_of_ne hne, List.count_cons_self] at this
        simp only [eventACKTracker.Add]
        push_cast at this ⊢
        omega
      have hp : 0 ≤ (a.Add 1).pendingACKs := by
        simp only [eventACKTracker.Add]
        push_cast
        omega
      have hI1 : (a.Add 1).added = true → (a.Add 1).pendingACKs = 0 →
          (a.Add 1).canceled = true := by
        intro _ hz
        simp only [eventACKTracker.Add] at hz
        push_cast at hz
        omega
      obtain ⟨b, hb, hbp, hba, hbI⟩ := ih (a.Add 1) hrest hp hk1 hI1
      refine ⟨b, ?_, ?_, fun _ => hba (Or.inl rfl), hbI⟩
      · unfold runCalls
        exact hb
      · rw [hbp, List.count_cons_of_ne hne, List.count_cons_self]
        simp only [eventACKTracker.Add]
        push_cast
        ring
    · subst hc
      have hne : Call.add 1 ≠ Call.ack := by decide
      have h1 : (1 : Int) ≤ a.pendingACKs := by
        have := hk 1
        rw [List.take_succ_cons, List.take_zero, List.count_cons_self,
          List.count_cons_of_ne hne] at this
        simpa using this
      obtain ⟨a1, ha1, _⟩ := a.ACKn_of_le 1 (by exact_mod_cast h1)
      obtain ⟨_, q2, q3, q4⟩ := eventACKTracker.ACKn_ok a a1 1 ha1
      have q2' : a1.pendingACKs = a.pendingACKs - 1 := by simpa using q2
      have hk1 : ∀ k, (((rest.take k).count Call.ack : Nat) : Int) ≤
          a1.pendingACKs + (((rest.take k).count (Call.add 1) : Nat) : Int) := by
        intro k
        have := hk (k + 1)
        rw [List.take_succ_cons, List.count_cons_self, List.count_cons_of_ne hne] at this
        push_cast at this
        omega
      have hI1 : a1.added = true → a1.pendingACKs = 0 → a1.canceled = true :=
        fun _ hz => q4.mpr (Or.inr hz)
      obtain ⟨b, hb, hbp, hba, hbI⟩ := ih a1 hrest (by omega) hk1 hI1
      refine ⟨b, ?_, ?_, ?_, hbI⟩
      · unfold runCalls
        show (match a.ACK with
          | Except.error e => Except.error e
          | Except.ok b => runCalls rest b) = Except.ok b
        unfold eventACKTracker.ACK
        rw [ha1]
        exact hb
      · rw [hbp, List.count_cons_self, List.count_cons_of_ne hne]
        push_cast
        omega
      · rintro (h | h)
        · exact hba (Or.inl (by rw [q3]; exact h))
        · rw [List.count_cons_of_ne hne] at h
          exact hba (Or.inr h)

/-- C17 as stated fails: in the interleaving `ACK()`, `Add(1)` of one `Add(1)` and one
`ACK()` the `ACK()` finds nothing pending and is rejected, so the calls do not end with
`pendingACKs == 0`; and for `n = 0` there is no call and the signal never fires. -/
theorem interleaving_counterexample :
    (Interleaving 1 [Call.ack, Call.add 1] ∧
      runCalls [Call.ack, Call.add 1] (newEventACKTracker false) =
        Except.error Violation.negativeCounter) ∧
    (Interleaving 0 [] ∧
      runCalls [] (newEventACKTracker false) = Except.ok (newEventACKTracker false) ∧
      (newEventACKTracker false).canceled = false ∧
      firings [] (newEventACKTracker false) = 0) := by
  refine ⟨⟨?_, rfl⟩, ?_, rfl, rfl, rfl⟩
  · exact List.Perm.swap _ _ _
  · exact List.Perm.refl _

/-- C17, amended: for `n ≥ 1`, every interleaving of `n` calls `Add(1)` and `n` calls
`ACK()` on one fresh tracker in which each `ACK()` comes after an `Add(1)` of its own, the
calls taking effect one at a time, runs to its end with `pendingACKs == 0` and the lifetime
signal canceled, having fired exactly once. -/
theorem interleaved_Add_ACK (n : Nat) (calls : List Call) (hn : 1 ≤ n)
    (hi : Interleaving n calls) (hb : AddsFirst calls) :
    ∃ a, runCalls calls (newEventACKTracker false) = Except.ok a ∧
      a.pendingACKs = 0 ∧ a.canceled = true ∧
      firings calls (newEventACKTracker false) = 1 := by
  have hne : Call.add 1 ≠ Call.ack := by decide
  have hm : ∀ c ∈ calls, c = Call.add 1 ∨ c = Call.ack := by
    intro c hc
    have := hi.mem_iff.mp hc
    rw [List.mem_append] at this
    rcases this with h | h
    · exact Or.inl (List.eq_of_mem_replicate h)
    · exact Or.inr (List.eq_of_mem_replicate h)
  have hca : calls.count (Call.add 1) = n := by
    rw [hi.count_eq, List.count_append, List.count_replicate_self,
      List.count_eq_zero_of_not_mem (fun h => hne (List.eq_of_mem_replicate h))]
    rfl
  have hck : calls.count Call.ack = n := by
    rw [hi.count_eq, List.count_append, List.count_replicate_self,
      List.count_eq_zero_of_not_mem (fun h => hne (List.eq_of_mem_replicate h).symm)]
    simp
  have hk : ∀ k, (((calls.take k).count Call.ack : Nat) : Int) ≤
      (newEventACKTracker false).pendingACKs +
        (((calls.take k).count (Call.add 1) : Nat) : Int) := by
    intro k
    have := hb k
    show (((calls.take k).count Call.ack : Nat) : Int) ≤
      0 + (((calls.take k).count (Call.add 1) : Nat) : Int)
    omega
  obtain ⟨a, ha, hp, hadd, hI⟩ := runCalls_balanced calls (newEventACKTracker false) hm
    (le_refl _) hk (fun h => by cases h)
  have hp0 : a.pendingACKs = 0 := by
    rw [hp, hca, hck]
    show (0 : Int) + (n : Int) - (n : Int) = 0
    omega
  have hc : a.canceled = true := hI (hadd (Or.inr (by omega))) hp0
  refine ⟨a, ha, hp0, hc, ?_⟩
  have hf := runCalls_firings calls (newEventACKTracker false) a ha
  rw [hc] at hf
  have hfresh : (newEventACKTracker false).canceled = false := rfl
  rw [hfresh] at hf
  simpa using hf

/-- C17 on the interleaving `Add(1)`, `ACK()`, `Add(1)`, `ACK()`, in which the count comes
to 0 twice and the signal fires once. -/
theorem interleaved_Add_ACK_witness :
    ∃ a, runCalls [Call.add 1, Call.ack, Call.add 1, Call.ack] (newEventACKTracker false) =
        Except.ok a ∧
      a.pendingACKs = 0 ∧ a.canceled = true ∧
      firings [Call.add 1, Call.ack, Call.add 1, Call.ack] (newEventACKTracker false) = 1 :=
  interleaved_Add_ACK 2 [Call.add 1, Call.ack, Call.add 1, Call.ack] (by decide)
    (List.Perm.cons _ (List.Perm.swap _ _ _))
    (fun k => by
      rcases k with _ | _ | _ | _ | k
      · decide
      · decide
      · decide
      · decide
      · rw [List.take_of_length_le (by simp)]
        decide)

end awss3
